import Mathlib

/-!
# media-box: the playback-state controller

Shallow embedding of `business/usecase/state.go` (type `StateUseCase`) and of
the data it owns (`business/entity/state.go`).

Modelling decisions, each taken from the source:

* Every handler (`Power`, `Pause`, `Mute`, `NextChannel`, `PrevChannel`,
  `DefaultChannel`, `changeTrackCallback`, one iteration of the loop inside
  `trackListNotifier`, one iteration of the loop inside
  `disconnectConnectionCallback`) is one atomic step on the controller value.
* The collaborators are inputs and outputs of a step: the result of
  `player.Play` / `player.Pause` / the external mute command is a `Bool`
  argument (`true` = `err == nil`); every call made on the player is appended
  to `playerCalls`; every snapshot handed to `broker.PublishState` is appended
  to `published`. `json.Marshal` cannot fail on `entity.State` (booleans,
  strings and a pointer to a struct of strings), so a snapshot is represented
  by the `State` value it serialises.
* `getCurrentTimestamp()` is an input: each read of the clock that influences
  the state is an `Int` argument, in the order the reads happen.
* `int64` arithmetic on timestamps wraps (`wrapInt64`). The channel index is a
  Go `int` that only ever moves by one step from a value in `[-1, len]`; it is
  modelled in `Int`.
* Indexing `uc.cfg.Channels[uc.curChannelIdx]` out of range panics in Go; a
  step that panics returns `none`.
-/

namespace MediaBox

/-- Go type `entity.Channel`. -/
structure Channel where
  Title : String
  URL : String
  Img : String
  deriving DecidableEq, Repr

/-- Go type `entity.State`, the device state that is serialised and published. -/
structure State where
  Power : Bool
  Mute : Bool
  Pause : Bool
  Track : String
  Channel : Option Channel
  deriving DecidableEq, Repr

/-- Go type `track`: one deferred track entry. -/
structure track where
  ts : Int
  title : String
  deriving DecidableEq, Repr

/-- Go type `StateConfig`. -/
structure StateConfig where
  Channels : List Channel
  Mute : String
  Unmute : String
  deriving DecidableEq, Repr

/-- One call made on the `Player` collaborator. -/
inductive PlayerCall where
  | Stop
  | Play (url : String)
  | Pause
  deriving DecidableEq, Repr

/-- Go type `StateUseCase`, with the two output logs and the `sync.Once` of the
notifier made explicit. -/
structure StateUseCase where
  cfg : StateConfig
  state : State
  curChannelIdx : Int
  pauseBegin : Int
  pauseDelay : Int
  pauseExists : Bool
  trackList : List track
  notifierStarted : Bool
  published : List State
  playerCalls : List PlayerCall
  deriving DecidableEq, Repr

/-- Two's complement wrap-around of `int64` arithmetic. -/
def wrapInt64 (x : Int) : Int :=
  (x + 9223372036854775808) % 18446744073709551616 - 9223372036854775808

/-- The value is representable as an `int64`. -/
def FitsInt64 (x : Int) : Prop :=
  -9223372036854775808 ≤ x ∧ x ≤ 9223372036854775807

instance (x : Int) : Decidable (FitsInt64 x) := by
  unfold FitsInt64
  infer_instance

/-- Go slice indexing `Channels[i]`: `none` stands for the run-time panic. -/
def channelAt (cs : List Channel) (i : Int) : Option Channel :=
  if 0 ≤ i then cs[i.toNat]? else none

/-- Go `NewStateUseCase`. -/
def NewStateUseCase (cfg : StateConfig) : StateUseCase :=
  { cfg := cfg
    state := { Power := false, Mute := false, Pause := false, Track := "", Channel := none }
    curChannelIdx := -1
    pauseBegin := 0
    pauseDelay := 0
    pauseExists := false
    trackList := []
    notifierStarted := false
    published := []
    playerCalls := [] }

/-- Go `publish`: the marshalled state is handed to the broker. -/
def publish (uc : StateUseCase) : StateUseCase :=
  { uc with published := uc.published ++ [uc.state] }

/-- Go `clearTrackList`. -/
def clearTrackList (uc : StateUseCase) : StateUseCase :=
  { uc with trackList := [] }

/-- Go `recalculateTrackList`: every entry is shifted by `delay`. -/
def recalculateTrackList (uc : StateUseCase) (delay : Int) : StateUseCase :=
  { uc with trackList := uc.trackList.map (fun t => { t with ts := wrapInt64 (t.ts + delay) }) }

/-- Go `addToTrackList`; `now` is the clock read of the call. -/
def addToTrackList (uc : StateUseCase) (title : String) (now : Int) : StateUseCase :=
  { uc with trackList := uc.trackList ++ [{ ts := wrapInt64 (now + uc.pauseDelay), title := title }] }

/-- Go `play`: the result is the new controller and whether `err == nil`. -/
def play (uc : StateUseCase) (playOk : Bool) : Option (StateUseCase × Bool) :=
  let uc1 := { uc with playerCalls := uc.playerCalls ++ [PlayerCall.Stop] }
  match channelAt uc1.cfg.Channels uc1.curChannelIdx with
  | none => none
  | some ch =>
    let uc2 := { uc1 with playerCalls := uc1.playerCalls ++ [PlayerCall.Play ch.URL] }
    if playOk then
      some ({ uc2 with state := { uc2.state with Channel := some ch } }, true)
    else
      some (uc2, false)

/-- Go `Power`. -/
def Power (uc : StateUseCase) (playOk : Bool) : Option StateUseCase :=
  let uc1 := if uc.curChannelIdx = -1 then { uc with curChannelIdx := 0 } else uc
  if !uc1.state.Power then
    match play uc1 playOk with
    | none => none
    | some (uc2, false) => some uc2
    | some (uc2, true) =>
      some (publish { uc2 with state := { uc2.state with Power := !uc2.state.Power } })
  else
    let uc2 := { uc1 with pauseExists := false, pauseDelay := 0 }
    let uc3 := clearTrackList uc2
    let uc4 := { uc3 with playerCalls := uc3.playerCalls ++ [PlayerCall.Stop] }
    some (publish { uc4 with state := { uc4.state with Power := !uc4.state.Power } })

/-- Go `Pause`. `now1` is the clock read of line 113 or 117, `now2` the clock
read of line 118 (made only on the resume branch). -/
def Pause (uc : StateUseCase) (pauseOk : Bool) (now1 now2 : Int) : StateUseCase :=
  let uc1 := { uc with playerCalls := uc.playerCalls ++ [PlayerCall.Pause] }
  if !pauseOk then uc1
  else if !uc1.state.Pause then
    let uc2 := { uc1 with notifierStarted := true }
    let uc3 := { uc2 with pauseBegin := now1 }
    let uc4 := { uc3 with state := { uc3.state with Pause := true } }
    publish { uc4 with pauseExists := true }
  else
    let uc2 := recalculateTrackList uc1 (wrapInt64 (now1 - uc1.pauseBegin))
    let uc3 := { uc2 with pauseDelay := wrapInt64 (uc2.pauseDelay + wrapInt64 (now2 - uc2.pauseBegin)) }
    let uc4 := { uc3 with pauseBegin := 0 }
    publish { uc4 with state := { uc4.state with Pause := false } }

/-- Go `Mute`; `cmdOk` says whether the external command (`cfg.Mute`, or
`cfg.Unmute` when muted) succeeded. -/
def Mute (uc : StateUseCase) (cmdOk : Bool) : StateUseCase :=
  if !cmdOk then uc
  else publish { uc with state := { uc.state with Mute := !uc.state.Mute } }

/-- Go `NextChannel`. -/
def NextChannel (uc : StateUseCase) (playOk : Bool) : Option StateUseCase :=
  let uc1 := { uc with curChannelIdx := uc.curChannelIdx + 1 }
  let uc2 := if uc1.curChannelIdx ≥ (uc1.cfg.Channels.length : Int) then
      { uc1 with curChannelIdx := 0 } else uc1
  match play uc2 playOk with
  | none => none
  | some (uc3, _) => some uc3

/-- Go `PrevChannel`. -/
def PrevChannel (uc : StateUseCase) (playOk : Bool) : Option StateUseCase :=
  let uc1 := { uc with curChannelIdx := uc.curChannelIdx - 1 }
  let uc2 := if uc1.curChannelIdx < 0 then
      { uc1 with curChannelIdx := (uc1.cfg.Channels.length : Int) - 1 } else uc1
  match play uc2 playOk with
  | none => none
  | some (uc3, _) => some uc3

/-- Go `DefaultChannel`. -/
def DefaultChannel (uc : StateUseCase) (playOk : Bool) : Option StateUseCase :=
  let uc1 := { uc with curChannelIdx := 0 }
  match play uc1 playOk with
  | none => none
  | some (uc2, _) => some uc2

/-- Go `changeTrackCallback`; `now` is the clock read inside `addToTrackList`. -/
def changeTrackCallback (uc : StateUseCase) (title : String) (now : Int) : Option StateUseCase :=
  if !uc.state.Pause && !uc.pauseExists then
    match channelAt uc.cfg.Channels uc.curChannelIdx with
    | none => none
    | some ch =>
      let uc1 := { uc with state := { uc.state with Channel := some ch } }
      let uc2 := { uc1 with state := { uc1.state with Track := title } }
      if !uc2.state.Mute then some (publish uc2) else some uc2
  else
    some (addToTrackList uc title now)

/-- One iteration of the loop of Go `disconnectConnectionCallback`: one call of
`play`; the loop ends with the first iteration whose `play` succeeds. -/
def disconnectConnectionCallback (uc : StateUseCase) (playOk : Bool) : Option StateUseCase :=
  match play uc playOk with
  | none => none
  | some (uc1, _) => some uc1

/-- The `for _, t := range uc.trackList` loop of Go `trackListNotifier`:
`kept` is the local slice `trackList`. -/
def notifierRange (curTs : Int) : List track → StateUseCase → List track →
    Option (StateUseCase × List track)
  | [], uc, kept => some (uc, kept)
  | t :: rest, uc, kept =>
    if t.ts ≤ curTs then
      match channelAt uc.cfg.Channels uc.curChannelIdx with
      | none => none
      | some ch =>
        let uc1 := { uc with state := { uc.state with Channel := some ch } }
        let uc2 := { uc1 with state := { uc1.state with Track := t.title } }
        notifierRange curTs rest (publish uc2) kept
    else
      notifierRange curTs rest uc (kept ++ [t])

/-- One iteration of the endless loop of Go `trackListNotifier` (one
reconciliation tick); `curTs` is its clock read. -/
def trackListNotifier (uc : StateUseCase) (curTs : Int) : Option StateUseCase :=
  if !uc.state.Pause then
    match notifierRange curTs uc.trackList uc [] with
    | none => none
    | some (uc1, kept) => some { uc1 with trackList := kept }
  else
    some uc

/-- Everything that can happen to the controller: the six commands, the two
pipeline callbacks and the notifier tick, with the inputs of each. -/
inductive Event where
  | power (playOk : Bool)
  | pause (pauseOk : Bool) (now1 now2 : Int)
  | mute (cmdOk : Bool)
  | nextChannel (playOk : Bool)
  | prevChannel (playOk : Bool)
  | defaultChannel (playOk : Bool)
  | trackChanged (title : String) (now : Int)
  | reconnect (playOk : Bool)
  | tick (now : Int)
  deriving DecidableEq, Repr

/-- One atomic step of the controller. -/
def step (uc : StateUseCase) : Event → Option StateUseCase
  | .power ok => Power uc ok
  | .pause ok now1 now2 => some (Pause uc ok now1 now2)
  | .mute ok => some (Mute uc ok)
  | .nextChannel ok => NextChannel uc ok
  | .prevChannel ok => PrevChannel uc ok
  | .defaultChannel ok => DefaultChannel uc ok
  | .trackChanged title now => changeTrackCallback uc title now
  | .reconnect ok => disconnectConnectionCallback uc ok
  | .tick now => trackListNotifier uc now

/-- A sequence of steps; `none` as soon as one of them panics. -/
def run (uc : StateUseCase) : List Event → Option StateUseCase
  | [] => some uc
  | e :: es => (step uc e).bind (fun uc1 => run uc1 es)

/-- The event is a `NextChannel()` call. -/
def Event.isNext : Event → Bool
  | .nextChannel _ => true
  | _ => false

/-- The event is a `PrevChannel()` call. -/
def Event.isPrev : Event → Bool
  | .prevChannel _ => true
  | _ => false

/-! ## Admissible event sequences and the clock -/

/-- Some `Play` call has been made on the player. The stream transport exists
only from then on, so only then can the pipeline call back. -/
def pipelineStarted (uc : StateUseCase) : Bool :=
  uc.playerCalls.any (fun c => match c with
    | PlayerCall.Play _ => true
    | _ => false)

/-- The event can occur in the state: the two pipeline callbacks need a
pipeline, a tick needs the notifier loop to have been started (by the first
successful `Pause()`); commands can always occur. -/
def enabled (uc : StateUseCase) : Event → Bool
  | .trackChanged _ _ => pipelineStarted uc
  | .reconnect _ => pipelineStarted uc
  | .tick _ => uc.notifierStarted
  | _ => true

/-- Every event of the sequence is enabled in the state it occurs in. -/
def admissible (uc : StateUseCase) : List Event → Bool
  | [] => true
  | e :: es => enabled uc e &&
    (match step uc e with
      | some uc1 => admissible uc1 es
      | none => true)

/-- Clock readings are Unix seconds below `2^62`. -/
def clockBound : Int := 4611686018427387904

/-- The clock reads of one event are taken in order from a non-decreasing clock
that showed `last` before and stays below `clockBound`. -/
def eventClockOk (last : Int) : Event → Bool
  | .pause _ now1 now2 => decide (last ≤ now1) && decide (now1 ≤ now2) && decide (now2 < clockBound)
  | .trackChanged _ now => decide (last ≤ now) && decide (now < clockBound)
  | .tick now => decide (last ≤ now) && decide (now < clockBound)
  | _ => true

/-- The latest clock reading after the event. -/
def eventClockEnd (last : Int) : Event → Int
  | .pause _ _ now2 => now2
  | .trackChanged _ now => now
  | .tick now => now
  | _ => last

/-- The clock reads of the whole sequence come from a non-decreasing clock that
showed `last` before the first event. -/
def clockOk (last : Int) : List Event → Bool
  | [] => true
  | e :: es => eventClockOk last e && clockOk (eventClockEnd last e) es

/-- The latest clock reading after the whole sequence. -/
def clockEnd (last : Int) : List Event → Int
  | [] => last
  | e :: es => clockEnd (eventClockEnd last e) es

/-- The event is a `Pause()` call. -/
def Event.isPause : Event → Bool
  | .pause _ _ _ => true
  | _ => false

/-- The event is a `Power()` call. -/
def Event.isPower : Event → Bool
  | .power _ => true
  | _ => false

/-- The index addresses a configured channel. -/
def InRange (uc : StateUseCase) : Prop :=
  0 ≤ uc.curChannelIdx ∧ uc.curChannelIdx < uc.cfg.Channels.length

instance (uc : StateUseCase) : Decidable (InRange uc) := by
  unfold InRange
  infer_instance

/-- Index invariant of the data model: the index is the unselected sentinel with
power off, or it addresses a configured channel. -/
def IdxInv (uc : StateUseCase) : Prop :=
  (uc.curChannelIdx = -1 ∧ uc.state.Power = false) ∨ InRange uc

instance (uc : StateUseCase) : Decidable (IdxInv uc) := by
  unfold IdxInv
  infer_instance

/-- State in which no enabled event can panic: at least one channel is
configured and the index is in range, or nothing has happened yet that needs it
(index unselected, power off, no deferred entry, no `Play` call so far). -/
def Safe (uc : StateUseCase) : Prop :=
  1 ≤ uc.cfg.Channels.length ∧
  (InRange uc ∨
    (uc.curChannelIdx = -1 ∧ uc.state.Power = false ∧ uc.trackList = [] ∧
      pipelineStarted uc = false))

instance (uc : StateUseCase) : Decidable (Safe uc) := by
  unfold Safe
  infer_instance

/-- Timing invariant of the pause bookkeeping, `last` being the latest clock
reading so far: the pause-start time is a past reading (or 0), the accumulator
is the total length of past pauses, and no entry is scheduled later than
`last + pauseDelay`. -/
def TimeInv (uc : StateUseCase) (last : Int) : Prop :=
  0 ≤ last ∧ last < clockBound ∧
  0 ≤ uc.pauseBegin ∧ uc.pauseBegin ≤ last ∧
  0 ≤ uc.pauseDelay ∧
  (uc.state.Pause = true → uc.pauseDelay ≤ uc.pauseBegin) ∧
  (uc.state.Pause = false → uc.pauseDelay ≤ last) ∧
  ∀ t ∈ uc.trackList, 0 ≤ t.ts ∧ t.ts ≤ last + uc.pauseDelay

instance (uc : StateUseCase) (last : Int) : Decidable (TimeInv uc last) := by
  unfold TimeInv
  infer_instance

/-- The event is a track-change callback or a notifier tick. -/
def Event.isArrivalOrTick : Event → Bool
  | .trackChanged _ _ => true
  | .tick _ => true
  | _ => false

/-- The deferred entries created, in order, by the track-change callbacks of the
sequence while the pause-delay accumulator is `delay`. -/
def arrivals (delay : Int) : List Event → List track
  | [] => []
  | .trackChanged title now :: es => { ts := now + delay, title := title } :: arrivals delay es
  | _ :: es => arrivals delay es

/-- The entries of `l` delivered by ticks at the given times, in delivery order. -/
def ticksDeliver : List Int → List track → List track
  | [], _ => []
  | now :: rest, l =>
    l.filter (fun t => t.ts ≤ now) ++ ticksDeliver rest (l.filter (fun t => now < t.ts))

/-- The entries of `l` still buffered after ticks at the given times. -/
def ticksKeep : List Int → List track → List track
  | [], l => l
  | now :: rest, l => ticksKeep rest (l.filter (fun t => now < t.ts))


/-! ## Concrete data used to instantiate the theorems -/

/-- Three configured channels A, B, C. -/
def channelsABC : List Channel :=
  [⟨"A", "http://a", "a.png"⟩, ⟨"B", "http://b", "b.png"⟩, ⟨"C", "http://c", "c.png"⟩]

/-- Configuration with the channels A, B, C. -/
def cfgABC : StateConfig :=
  { Channels := channelsABC, Mute := "amixer set Master mute", Unmute := "amixer set Master unmute" }

/-- The freshly constructed controller over A, B, C (index -1, power off). -/
def ucFresh : StateUseCase := NewStateUseCase cfgABC

/-- The controller over A, B, C after the first `Power()` with a successful `Play`. -/
def ucOn : StateUseCase :=
  { ucFresh with
    curChannelIdx := 0
    state := { ucFresh.state with Power := true, Channel := channelsABC[0]? }
    published := [{ ucFresh.state with Power := true, Channel := channelsABC[0]? }]
    playerCalls := [PlayerCall.Stop, PlayerCall.Play "http://a"] }

/-- The controller `ucOn` after the live title "Song1" (at time 5). -/
def ucPlaying : StateUseCase :=
  { ucOn with
    state := { ucOn.state with Track := "Song1" }
    published := ucOn.published ++ [{ ucOn.state with Track := "Song1" }] }

/-- The controller `ucOn` after the live title "Song1" (at time 5) and a
successful `Pause()` at time 10. -/
def ucPaused : StateUseCase :=
  { ucOn with
    state := { ucOn.state with Track := "Song1", Pause := true }
    pauseBegin := 10
    pauseExists := true
    notifierStarted := true
    published := ucOn.published ++
      [{ ucOn.state with Track := "Song1" }, { ucOn.state with Track := "Song1", Pause := true }]
    playerCalls := ucOn.playerCalls ++ [PlayerCall.Pause] }

/-- The controller `ucPaused` (paused since time 10, accumulator 0) after the
title "Song2" arrived at time 10 and was buffered. -/
def ucBuffered : StateUseCase :=
  { ucPaused with trackList := [{ ts := 10, title := "Song2" }] }

/-- The controller `ucPaused` after the deferred titles "Song2" (at time 10) and
"Song3" (at time 15) and the resuming `Pause()` at time 15: "Song2" is scheduled
at 15, "Song3" at 20, the pause-delay accumulator is 5. -/
def ucDeferred : StateUseCase :=
  { ucPaused with
    state := { ucPaused.state with Pause := false }
    pauseBegin := 0
    pauseDelay := 5
    trackList := [{ ts := 15, title := "Song2" }, { ts := 20, title := "Song3" }]
    published := ucPaused.published ++ [{ ucPaused.state with Pause := false }]
    playerCalls := ucPaused.playerCalls ++ [PlayerCall.Pause] }

/-! ## Basic facts about the helpers -/

theorem wrapInt64_of_fits {x : Int} (h : FitsInt64 x) : wrapInt64 x = x := by
  unfold FitsInt64 at h
  unfold wrapInt64
  omega

theorem channelAt_isSome (cs : List Channel) (i : Int) (h0 : 0 ≤ i) (h1 : i < cs.length) :
    ∃ ch, channelAt cs i = some ch := by
  have hlt : i.toNat < cs.length := by omega
  refine ⟨cs[i.toNat], ?_⟩
  simp [channelAt, h0, List.getElem?_eq_getElem hlt]

theorem play_of_channelAt (uc : StateUseCase) {ch : Channel} (playOk : Bool)
    (h : channelAt uc.cfg.Channels uc.curChannelIdx = some ch) :
    play uc playOk = some
      ({ uc with
          playerCalls := uc.playerCalls ++ [PlayerCall.Stop] ++ [PlayerCall.Play ch.URL]
          state := if playOk then { uc.state with Channel := some ch } else uc.state },
        playOk) := by
  cases playOk <;> simp [play, h]


/-- The concrete controllers used as instances are reachable from the fresh one. -/
theorem example_controllers_reachable :
    run ucFresh [.power true] = some ucOn ∧
    run ucFresh [.power true, .trackChanged "Song1" 5] = some ucPlaying ∧
    run ucOn [.trackChanged "Song1" 5, .pause true 10 10] = some ucPaused ∧
    run ucPaused [.trackChanged "Song2" 10, .trackChanged "Song3" 15, .pause true 15 15]
      = some ucDeferred := by
  refine ⟨?_, ?_, ?_, ?_⟩ <;> decide

/-! ## Channel navigation -/

theorem NextChannel_spec (uc : StateUseCase) (playOk : Bool)
    (hN : 1 ≤ uc.cfg.Channels.length)
    (hlo : -1 ≤ uc.curChannelIdx) (hhi : uc.curChannelIdx < uc.cfg.Channels.length) :
    ∃ uc1, NextChannel uc playOk = some uc1 ∧ uc1.cfg = uc.cfg ∧
      uc1.curChannelIdx =
        (if uc.curChannelIdx + 1 ≥ (uc.cfg.Channels.length : Int) then 0
          else uc.curChannelIdx + 1) := by
  by_cases hw : uc.curChannelIdx + 1 ≥ (uc.cfg.Channels.length : Int)
  · obtain ⟨ch, hch⟩ := channelAt_isSome uc.cfg.Channels 0 (by omega) (by omega)
    have hp := play_of_channelAt { uc with curChannelIdx := 0 } playOk hch
    simp [NextChannel, hw, hp]
  · obtain ⟨ch, hch⟩ := channelAt_isSome uc.cfg.Channels (uc.curChannelIdx + 1)
      (by omega) (by omega)
    have hp := play_of_channelAt { uc with curChannelIdx := uc.curChannelIdx + 1 } playOk hch
    simp [NextChannel, hw, hp]

theorem PrevChannel_spec (uc : StateUseCase) (playOk : Bool)
    (hN : 1 ≤ uc.cfg.Channels.length) (hhi : uc.curChannelIdx < uc.cfg.Channels.length) :
    ∃ uc1, PrevChannel uc playOk = some uc1 ∧ uc1.cfg = uc.cfg ∧
      uc1.curChannelIdx =
        (if uc.curChannelIdx - 1 < 0 then (uc.cfg.Channels.length : Int) - 1
          else uc.curChannelIdx - 1) := by
  by_cases hw : uc.curChannelIdx - 1 < 0
  · obtain ⟨ch, hch⟩ := channelAt_isSome uc.cfg.Channels ((uc.cfg.Channels.length : Int) - 1)
      (by omega) (by omega)
    have hp := play_of_channelAt
      { uc with curChannelIdx := (uc.cfg.Channels.length : Int) - 1 } playOk hch
    simp [PrevChannel, hw, hp]
  · obtain ⟨ch, hch⟩ := channelAt_isSome uc.cfg.Channels (uc.curChannelIdx - 1)
      (by omega) (by omega)
    have hp := play_of_channelAt { uc with curChannelIdx := uc.curChannelIdx - 1 } playOk hch
    simp [PrevChannel, hw, hp]

theorem run_channel_calls (evs : List Event) :
    ∀ (uc : StateUseCase), 1 ≤ uc.cfg.Channels.length →
      -1 ≤ uc.curChannelIdx → uc.curChannelIdx < uc.cfg.Channels.length →
      (∀ e ∈ evs, e.isNext = true ∨ e.isPrev = true) →
      ∃ uc1, run uc evs = some uc1 ∧ uc1.cfg = uc.cfg ∧
        (evs ≠ [] → 0 ≤ uc1.curChannelIdx ∧ uc1.curChannelIdx < uc.cfg.Channels.length) ∧
        (0 ≤ uc.curChannelIdx →
          uc1.curChannelIdx =
            (uc.curChannelIdx + (evs.countP Event.isNext : Int) - (evs.countP Event.isPrev : Int))
              % (uc.cfg.Channels.length : Int)) := by
  induction evs with
  | nil =>
    intro uc hN hlo hhi _
    refine ⟨uc, rfl, rfl, by simp, ?_⟩
    intro h0
    simp
    exact (Int.emod_eq_of_lt h0 hhi).symm
  | cons e es ih =>
    intro uc hN hlo hhi hcalls
    have hes : ∀ e ∈ es, e.isNext = true ∨ e.isPrev = true :=
      fun x hx => hcalls x (List.mem_cons_of_mem _ hx)
    have he := hcalls e (List.mem_cons_self _ _)
    cases e with
    | nextChannel ok =>
      obtain ⟨u, hu, hcfg, hidx⟩ := NextChannel_spec uc ok hN hlo hhi
      have hu0 : 0 ≤ u.curChannelIdx ∧ u.curChannelIdx < uc.cfg.Channels.length := by
        rw [hidx]; split <;> omega
      obtain ⟨s, hs, hscfg, hsr, hsf⟩ := ih u (by rw [hcfg]; exact hN) (by omega)
        (by rw [hcfg]; exact hu0.2) hes
      refine ⟨s, by simp [run, step, hu, hs], by rw [hscfg, hcfg], ?_, ?_⟩
      · intro _
        by_cases hnil : es = []
        · subst hnil
          simp [run] at hs
          subst hs
          exact hu0
        · have := hsr hnil
          rw [hcfg] at this
          exact this
      · intro h0
        rw [hsf hu0.1, hcfg, hidx]
        simp only [List.countP_cons, Event.isNext, Event.isPrev]
        split
        · have hlast : uc.curChannelIdx + 1 = (uc.cfg.Channels.length : Int) := by omega
          have : uc.curChannelIdx + ((List.countP Event.isNext es + 1 : Nat) : Int)
              - ((List.countP Event.isPrev es + 0 : Nat) : Int)
              = (0 + (List.countP Event.isNext es : Int) - (List.countP Event.isPrev es : Int))
                + (uc.cfg.Channels.length : Int) := by
            push_cast; omega
          simp only [if_true, if_false, Bool.false_eq_true] at this ⊢
          rw [this, Int.add_emod_self]
        · congr 1
          simp only [if_true, if_false, Bool.false_eq_true]
          push_cast; omega
    | prevChannel ok =>
      obtain ⟨u, hu, hcfg, hidx⟩ := PrevChannel_spec uc ok hN hhi
      have hu0 : 0 ≤ u.curChannelIdx ∧ u.curChannelIdx < uc.cfg.Channels.length := by
        rw [hidx]; split <;> omega
      obtain ⟨s, hs, hscfg, hsr, hsf⟩ := ih u (by rw [hcfg]; exact hN) (by omega)
        (by rw [hcfg]; exact hu0.2) hes
      refine ⟨s, by simp [run, step, hu, hs], by rw [hscfg, hcfg], ?_, ?_⟩
      · intro _
        by_cases hnil : es = []
        · subst hnil
          simp [run] at hs
          subst hs
          exact hu0
        · have := hsr hnil
          rw [hcfg] at this
          exact this
      · intro h0
        rw [hsf hu0.1, hcfg, hidx]
        simp only [List.countP_cons, Event.isNext, Event.isPrev]
        split
        · have hfirst : uc.curChannelIdx = 0 := by omega
          have : ((uc.cfg.Channels.length : Int) - 1 + (List.countP Event.isNext es : Int)
              - (List.countP Event.isPrev es : Int))
              = (uc.curChannelIdx + ((List.countP Event.isNext es + 0 : Nat) : Int)
                - ((List.countP Event.isPrev es + 1 : Nat) : Int))
                + (uc.cfg.Channels.length : Int) := by
            push_cast; omega
          simp only [if_true, if_false, Bool.false_eq_true] at this ⊢
          rw [this, Int.add_emod_self]
        · congr 1
          simp only [if_true, if_false, Bool.false_eq_true]
          push_cast; omega
    | _ => simp [Event.isNext, Event.isPrev] at he



/-- C1: over N ≥ 1 channels, from the unselected index -1 or from any index in
`[0, N)`, every sequence of `NextChannel()`/`PrevChannel()` calls runs without
panic whatever each `Play` returns, the index after every call (every non-empty
initial segment of the sequence) lies in `[0, N)`, and from an index `i ≥ 0` a
sequence with `a` next-calls and `b` prev-calls ends at `(i + a - b) mod N`. -/
theorem channel_calls_index_mod (uc : StateUseCase) (evs : List Event)
    (hN : 1 ≤ uc.cfg.Channels.length)
    (hlo : -1 ≤ uc.curChannelIdx) (hhi : uc.curChannelIdx < uc.cfg.Channels.length)
    (hcalls : ∀ e ∈ evs, e.isNext = true ∨ e.isPrev = true) :
    (∀ k, 0 < k → k ≤ evs.length →
      ∃ s, run uc (evs.take k) = some s ∧
        0 ≤ s.curChannelIdx ∧ s.curChannelIdx < uc.cfg.Channels.length) ∧
    (∃ s, run uc evs = some s ∧
      (0 ≤ uc.curChannelIdx →
        s.curChannelIdx =
          (uc.curChannelIdx + (evs.countP Event.isNext : Int) - (evs.countP Event.isPrev : Int))
            % (uc.cfg.Channels.length : Int))) := by
  constructor
  · intro k hk hkl
    obtain ⟨s, hs, _, hr, _⟩ := run_channel_calls (evs.take k) uc hN hlo hhi
      (fun e he => hcalls e (List.mem_of_mem_take he))
    refine ⟨s, hs, hr ?_⟩
    intro hnil
    have hlen := congrArg List.length hnil
    rw [List.length_take, List.length_nil] at hlen
    omega
  · obtain ⟨s, hs, _, _, hf⟩ := run_channel_calls evs uc hN hlo hhi hcalls
    exact ⟨s, hs, hf⟩

/-- Witness for C1: on channels A, B, C from index 0, three `NextChannel()` and
one `PrevChannel()` (with mixed `Play` outcomes) end at index 2. -/
theorem channel_calls_index_mod_witness :
    ∃ s, run ucOn [.nextChannel true, .nextChannel false, .nextChannel true, .prevChannel false]
        = some s ∧ s.curChannelIdx = 2 := by
  obtain ⟨s, hs, hf⟩ := (channel_calls_index_mod ucOn
    [.nextChannel true, .nextChannel false, .nextChannel true, .prevChannel false]
    (by decide) (by decide) (by decide) (by decide)).2
  exact ⟨s, hs, by rw [hf (by decide)]; decide⟩
/-! ## Power -/

theorem Power_on_spec (uc : StateUseCase) (playOk : Bool) (ch : Channel)
    (hoff : uc.state.Power = false)
    (hch : channelAt uc.cfg.Channels (if uc.curChannelIdx = -1 then 0 else uc.curChannelIdx)
      = some ch) :
    Power uc playOk = some
      (if playOk then
        { uc with
          curChannelIdx := if uc.curChannelIdx = -1 then 0 else uc.curChannelIdx
          playerCalls := uc.playerCalls ++ [PlayerCall.Stop] ++ [PlayerCall.Play ch.URL]
          state := { uc.state with Channel := some ch, Power := true }
          published := uc.published ++ [{ uc.state with Channel := some ch, Power := true }] }
      else
        { uc with
          curChannelIdx := if uc.curChannelIdx = -1 then 0 else uc.curChannelIdx
          playerCalls := uc.playerCalls ++ [PlayerCall.Stop] ++ [PlayerCall.Play ch.URL] }) := by
  by_cases h1 : uc.curChannelIdx = -1
  · simp only [h1, if_true] at hch
    have hp := play_of_channelAt { uc with curChannelIdx := 0 } playOk hch
    cases playOk <;> simp [Power, h1, hoff, hp, publish]
  · simp only [h1, if_false] at hch
    have hp := play_of_channelAt uc playOk hch
    cases playOk <;> simp [Power, h1, hoff, hp, publish]

theorem Power_off_spec (uc : StateUseCase) (playOk : Bool) (hon : uc.state.Power = true) :
    Power uc playOk = some
      { uc with
        curChannelIdx := if uc.curChannelIdx = -1 then 0 else uc.curChannelIdx
        pauseExists := false
        pauseDelay := 0
        trackList := []
        playerCalls := uc.playerCalls ++ [PlayerCall.Stop]
        state := { uc.state with Power := false }
        published := uc.published ++ [{ uc.state with Power := false }] } := by
  by_cases h1 : uc.curChannelIdx = -1 <;> simp [Power, h1, hon, publish, clearTrackList]

theorem selected_channel_isSome (uc : StateUseCase) (hN : 1 ≤ uc.cfg.Channels.length)
    (hidx : uc.curChannelIdx = -1 ∨
      (0 ≤ uc.curChannelIdx ∧ uc.curChannelIdx < uc.cfg.Channels.length)) :
    ∃ ch, channelAt uc.cfg.Channels (if uc.curChannelIdx = -1 then 0 else uc.curChannelIdx)
      = some ch := by
  by_cases h1 : uc.curChannelIdx = -1
  · simp only [h1, if_true]
    exact channelAt_isSome _ _ (by omega) (by omega)
  · simp only [h1, if_false]
    rcases hidx with h | ⟨h0, h2⟩
    · exact absurd h h1
    · exact channelAt_isSome _ _ h0 h2

/-- C2: `Power()` called while power is false, on N ≥ 1 channels with the index
unselected (-1) or in range, returns; if `Play` fails the power flag is still
false and `currentChannel` is unchanged; if `Play` succeeds the power flag is
true and `currentChannel` is `Channels[idx]` for the selected index, which is 0
when the index was -1 and the old index otherwise. -/
theorem power_on_all_or_nothing (uc : StateUseCase)
    (hoff : uc.state.Power = false)
    (hN : 1 ≤ uc.cfg.Channels.length)
    (hidx : uc.curChannelIdx = -1 ∨
      (0 ≤ uc.curChannelIdx ∧ uc.curChannelIdx < uc.cfg.Channels.length)) :
    (∃ s, Power uc false = some s ∧ s.state.Power = false ∧
      s.state.Channel = uc.state.Channel) ∧
    (∃ s ch, Power uc true = some s ∧ s.state.Power = true ∧
      s.curChannelIdx = (if uc.curChannelIdx = -1 then 0 else uc.curChannelIdx) ∧
      channelAt uc.cfg.Channels s.curChannelIdx = some ch ∧
      s.state.Channel = some ch) := by
  obtain ⟨ch, hch⟩ := selected_channel_isSome uc hN hidx
  constructor
  · refine ⟨_, Power_on_spec uc false ch hoff hch, ?_, ?_⟩
    · simpa using hoff
    · simp
  · refine ⟨_, ch, Power_on_spec uc true ch hoff hch, ?_, ?_, ?_, ?_⟩
    · simp
    · simp
    · simpa using hch
    · simp

/-- Witness for C2: the fresh controller over A, B, C (index -1, power off). -/
theorem power_on_all_or_nothing_witness :
    (∃ s, Power ucFresh false = some s ∧ s.state.Power = false ∧
      s.state.Channel = ucFresh.state.Channel) ∧
    (∃ s ch, Power ucFresh true = some s ∧ s.state.Power = true ∧
      s.curChannelIdx = (if ucFresh.curChannelIdx = -1 then 0 else ucFresh.curChannelIdx) ∧
      channelAt ucFresh.cfg.Channels s.curChannelIdx = some ch ∧
      s.state.Channel = some ch) :=
  power_on_all_or_nothing ucFresh (by decide) (by decide) (by decide)

/-- C6, counterexample: on the fresh controller over A, B, C (power off), a
`Power()` whose `Play` fails returns without handing any snapshot to the
broker, so it is not followed by a published snapshot. -/
theorem power_failed_play_publishes_nothing :
    ucFresh.state.Power = false ∧
    (Power ucFresh false).map (fun s => s.published) = some ucFresh.published ∧
    ¬ ∃ s, Power ucFresh false = some s ∧ s.published = ucFresh.published ++ [s.state] := by
  refine ⟨by decide, by decide, ?_⟩
  rintro ⟨s, hs, hp⟩
  have h1 : (Power ucFresh false).map (fun s => s.published) = some ucFresh.published := by
    decide
  rw [hs] at h1
  simp only [Option.map_some', Option.some.injEq] at h1
  rw [h1] at hp
  simp at hp

/-- C6, amended: `Power()` returns (the index being unselected or in range when
power is off); when it turns the device off, or turns it on with a successful
`Play`, exactly one snapshot is handed to the broker and it equals the state at
the end of the call; when power is off and `Play` fails nothing is published and
the device state is unchanged. -/
theorem power_publishes_unless_play_fails (uc : StateUseCase) (playOk : Bool)
    (hidx : uc.state.Power = false → 1 ≤ uc.cfg.Channels.length ∧
      (uc.curChannelIdx = -1 ∨
        (0 ≤ uc.curChannelIdx ∧ uc.curChannelIdx < uc.cfg.Channels.length))) :
    ∃ s, Power uc playOk = some s ∧
      ((uc.state.Power = true ∨ playOk = true) → s.published = uc.published ++ [s.state]) ∧
      ((uc.state.Power = false ∧ playOk = false) →
        s.published = uc.published ∧ s.state = uc.state) := by
  cases hpow : uc.state.Power with
  | true =>
    refine ⟨_, Power_off_spec uc playOk hpow, ?_, ?_⟩
    · intro _; simp
    · rintro ⟨h, _⟩; exact absurd h (by simp)
  | false =>
    obtain ⟨hN, hi⟩ := hidx hpow
    obtain ⟨ch, hch⟩ := selected_channel_isSome uc hN hi
    refine ⟨_, Power_on_spec uc playOk ch hpow hch, ?_, ?_⟩
    · rintro (h | h)
      · exact absurd h (by simp)
      · subst h; simp
    · rintro ⟨_, h⟩
      subst h; simp

/-- Witness for C6 (amended): the fresh controller over A, B, C, `Play` succeeding. -/
theorem power_publishes_unless_play_fails_witness :
    ∃ s, Power ucFresh true = some s ∧
      ((ucFresh.state.Power = true ∨ true = true) → s.published = ucFresh.published ++ [s.state]) ∧
      ((ucFresh.state.Power = false ∧ true = false) →
        s.published = ucFresh.published ∧ s.state = ucFresh.state) :=
  power_publishes_unless_play_fails ucFresh true (fun _ => ⟨by decide, by decide⟩)

/-- C7, counterexample: power on, "Song1" live, pause at time 10 (the controller
`ucPaused`: power true, pause-start time 10), then `Power()`. The call turns the
device off and leaves the pause-start time at 10, not at its initial value 0. -/
theorem power_off_keeps_pause_begin :
    run ucFresh [.power true, .trackChanged "Song1" 5, .pause true 10 10] = some ucPaused ∧
    ucPaused.state.Power = true ∧
    (Power ucPaused true).map (fun s => (s.state.Power, s.pauseBegin)) = some (false, 10) ∧
    (Power ucPaused true).map (fun s => s.pauseBegin) ≠ some 0 := by
  refine ⟨?_, ?_, ?_, ?_⟩ <;> decide

/-- C7, amended: `Power()` called while power is true returns with power false,
`Stop()` as the last call made on the player, the deferred list empty, none of
its entries delivered (the only snapshot published is the final state, whose
track and channel are the old ones), the pause-pending flag false and the
pause-delay accumulator 0; the pause-start time is left as it was. And from the
off state, when `Play` succeeds, two `Power()` calls give power true after the
first and power false, with `Stop()` as last player call, after the second. -/
theorem power_off_resets :
    (∀ (uc : StateUseCase) (playOk : Bool), uc.state.Power = true →
      ∃ s, Power uc playOk = some s ∧ s.state.Power = false ∧
        s.playerCalls = uc.playerCalls ++ [PlayerCall.Stop] ∧
        s.trackList = [] ∧
        s.published = uc.published ++ [s.state] ∧
        s.state.Track = uc.state.Track ∧ s.state.Channel = uc.state.Channel ∧
        s.pauseExists = false ∧ s.pauseDelay = 0 ∧ s.pauseBegin = uc.pauseBegin) ∧
    (∀ (uc : StateUseCase) (playOk : Bool), uc.state.Power = false →
      1 ≤ uc.cfg.Channels.length →
      (uc.curChannelIdx = -1 ∨
        (0 ≤ uc.curChannelIdx ∧ uc.curChannelIdx < uc.cfg.Channels.length)) →
      ∃ s1 s2, Power uc true = some s1 ∧ s1.state.Power = true ∧
        Power s1 playOk = some s2 ∧ s2.state.Power = false ∧
        s2.playerCalls = s1.playerCalls ++ [PlayerCall.Stop]) := by
  constructor
  · intro uc playOk hon
    refine ⟨_, Power_off_spec uc playOk hon, ?_⟩
    simp
  · intro uc playOk hoff hN hidx
    obtain ⟨ch, hch⟩ := selected_channel_isSome uc hN hidx
    have h1 := Power_on_spec uc true ch hoff hch
    simp only [if_true] at h1
    refine ⟨_, _, h1, by simp, Power_off_spec _ playOk (by simp), by simp, by simp⟩

/-- Witness for C7 (amended): the controller over A, B, C after the first
power-on, and the fresh controller for the two-call statement. -/
theorem power_off_resets_witness :
    (∃ s, Power ucOn true = some s ∧ s.state.Power = false ∧
        s.playerCalls = ucOn.playerCalls ++ [PlayerCall.Stop] ∧
        s.trackList = [] ∧
        s.published = ucOn.published ++ [s.state] ∧
        s.state.Track = ucOn.state.Track ∧ s.state.Channel = ucOn.state.Channel ∧
        s.pauseExists = false ∧ s.pauseDelay = 0 ∧ s.pauseBegin = ucOn.pauseBegin) ∧
    (∃ s1 s2, Power ucFresh true = some s1 ∧ s1.state.Power = true ∧
        Power s1 false = some s2 ∧ s2.state.Power = false ∧
        s2.playerCalls = s1.playerCalls ++ [PlayerCall.Stop]) :=
  ⟨power_off_resets.1 ucOn true (by decide),
   power_off_resets.2 ucFresh false (by decide) (by decide) (by decide)⟩

/-! ## Track-change callback -/

/-- C5: `changeTrackCallback(title)` at time `now` with a valid channel index
returns. If paused is false and no pause is pending, the result is the old
controller with `currentTrack = title`, `currentChannel = Channels[idx]`, the
deferred list untouched, and one snapshot (the new state) published when mute is
false, none when mute is true. Otherwise the device state and the published log
are unchanged and the single entry `(now + pauseDelay, title)` is appended at the
end of the deferred list (`now + pauseDelay` being an `int64`). -/
theorem track_callback_live_or_deferred (uc : StateUseCase) (title : String) (now : Int)
    (h0 : 0 ≤ uc.curChannelIdx) (h1 : uc.curChannelIdx < uc.cfg.Channels.length)
    (hfit : FitsInt64 (now + uc.pauseDelay)) :
    ((uc.state.Pause = false ∧ uc.pauseExists = false) →
      ∃ ch, channelAt uc.cfg.Channels uc.curChannelIdx = some ch ∧
        changeTrackCallback uc title now = some
          { uc with
            state := { uc.state with Track := title, Channel := some ch }
            published :=
              if uc.state.Mute then uc.published
              else uc.published ++ [{ uc.state with Track := title, Channel := some ch }] }) ∧
    (¬ (uc.state.Pause = false ∧ uc.pauseExists = false) →
      changeTrackCallback uc title now = some
        { uc with trackList := uc.trackList ++ [{ ts := now + uc.pauseDelay, title := title }] }) := by
  constructor
  · rintro ⟨hp, he⟩
    obtain ⟨ch, hch⟩ := channelAt_isSome _ _ h0 h1
    refine ⟨ch, hch, ?_⟩
    cases hm : uc.state.Mute <;> simp [changeTrackCallback, hp, he, hch, hm, publish]
  · intro h
    have hc : (!uc.state.Pause && !uc.pauseExists) = false := by
      cases hp : uc.state.Pause <;> cases he : uc.pauseExists <;> simp_all
    simp [changeTrackCallback, hc, addToTrackList, wrapInt64_of_fits hfit]

/-- Witness for C5: the live branch on the powered-on controller over A, B, C
and the deferred branch on the same controller paused at time 10. -/
theorem track_callback_live_or_deferred_witness :
    (∃ ch, channelAt ucOn.cfg.Channels ucOn.curChannelIdx = some ch ∧
        changeTrackCallback ucOn "Song1" 5 = some
          { ucOn with
            state := { ucOn.state with Track := "Song1", Channel := some ch }
            published :=
              if ucOn.state.Mute then ucOn.published
              else ucOn.published ++ [{ ucOn.state with Track := "Song1", Channel := some ch }] }) ∧
    changeTrackCallback ucPaused "Song2" 10 = some
        { ucPaused with
          trackList := ucPaused.trackList ++ [{ ts := 10 + ucPaused.pauseDelay, title := "Song2" }] } :=
  ⟨(track_callback_live_or_deferred ucOn "Song1" 5 (by decide) (by decide) (by decide)).1
      ⟨by decide, by decide⟩,
   (track_callback_live_or_deferred ucPaused "Song2" 10 (by decide) (by decide) (by decide)).2
      (by decide)⟩


/-! ## Reconciliation tick -/

theorem notifierRange_spec (curTs : Int) (ch : Channel) (l : List track) :
    ∀ (uc : StateUseCase) (kept : List track),
      channelAt uc.cfg.Channels uc.curChannelIdx = some ch →
      notifierRange curTs l uc kept = some
        ({ uc with
            state := match (l.filter (fun t => t.ts ≤ curTs)).getLast? with
              | none => uc.state
              | some t => { uc.state with Channel := some ch, Track := t.title }
            published := uc.published ++
              (l.filter (fun t => t.ts ≤ curTs)).map
                (fun t => { uc.state with Channel := some ch, Track := t.title }) },
          kept ++ l.filter (fun t => curTs < t.ts)) := by
  induction l with
  | nil => intro uc kept _; simp [notifierRange]
  | cons t rest ih =>
    intro uc kept hch
    by_cases hdue : t.ts ≤ curTs
    · have hnot : ¬ curTs < t.ts := by omega
      have hch1 : channelAt
          (publish { uc with state := { uc.state with Channel := some ch, Track := t.title } }).cfg.Channels
          (publish { uc with state := { uc.state with Channel := some ch, Track := t.title } }).curChannelIdx
          = some ch := by simpa [publish] using hch
      rw [notifierRange, if_pos hdue]
      simp only [hch]
      rw [ih _ kept hch1]
      simp only [List.filter_cons, hdue, hnot, decide_True, decide_False, if_true, if_false,
        Bool.false_eq_true, List.map_cons, publish, List.getLast?_cons_cons]
      cases hl : (List.filter (fun t => decide (t.ts ≤ curTs)) rest).getLast? with
      | none =>
        have : List.filter (fun t => decide (t.ts ≤ curTs)) rest = [] := by
          simpa [List.getLast?_eq_none_iff] using hl
        simp [this]
      | some x =>
        have hne : List.filter (fun t => decide (t.ts ≤ curTs)) rest ≠ [] := by
          intro h; simp [h] at hl
        obtain ⟨y, ys, hys⟩ := List.exists_cons_of_ne_nil hne
        rw [hys] at hl ⊢
        simp [List.getLast?_cons_cons, hl]
    · have hnot : curTs < t.ts := by omega
      rw [notifierRange, if_neg hdue]
      rw [ih _ (kept ++ [t]) hch]
      simp [List.filter_cons, hdue, hnot]

theorem notifierRange_none_due (curTs : Int) (l : List track) :
    ∀ (uc : StateUseCase) (kept : List track), (∀ t ∈ l, curTs < t.ts) →
      notifierRange curTs l uc kept = some (uc, kept ++ l) := by
  induction l with
  | nil => intro uc kept _; simp [notifierRange]
  | cons t rest ih =>
    intro uc kept h
    have ht : ¬ t.ts ≤ curTs := by
      have := h t (List.mem_cons_self _ _)
      omega
    rw [notifierRange, if_neg ht, ih _ _ (fun x hx => h x (List.mem_cons_of_mem _ hx))]
    simp

/-- One tick, with the channel at the index made explicit. -/
theorem trackListNotifier_spec (uc : StateUseCase) (now : Int) :
    (uc.state.Pause = true → trackListNotifier uc now = some uc) ∧
    (uc.state.Pause = false →
      0 ≤ uc.curChannelIdx → uc.curChannelIdx < uc.cfg.Channels.length →
      ∃ ch, channelAt uc.cfg.Channels uc.curChannelIdx = some ch ∧
        trackListNotifier uc now = some
          { uc with
            trackList := uc.trackList.filter (fun t => now < t.ts)
            published := uc.published ++
              (uc.trackList.filter (fun t => t.ts ≤ now)).map
                (fun t => { uc.state with Channel := some ch, Track := t.title })
            state := match (uc.trackList.filter (fun t => t.ts ≤ now)).getLast? with
              | none => uc.state
              | some t => { uc.state with Channel := some ch, Track := t.title } } ∧
        List.Perm
          (uc.trackList.filter (fun t => t.ts ≤ now) ++ uc.trackList.filter (fun t => now < t.ts))
          uc.trackList) := by
  constructor
  · intro hp
    simp [trackListNotifier, hp]
  · intro hp h0 h1
    obtain ⟨ch, hch⟩ := channelAt_isSome _ _ h0 h1
    refine ⟨ch, hch, ?_, ?_⟩
    · simp [trackListNotifier, hp, notifierRange_spec now ch uc.trackList uc [] hch]
    · have hfun : (fun t : track => decide (now < t.ts))
          = (fun t : track => !decide (t.ts ≤ now)) := by
        funext t
        by_cases h : t.ts ≤ now
        · have : ¬ now < t.ts := by omega
          simp [h, this]
        · have : now < t.ts := by omega
          simp [h, this]
      rw [hfun]
      exact List.filter_append_perm _ _

/-- C10: one reconciliation tick at time `now`. While paused it changes
nothing. While not paused (the index being valid whenever an entry is due, as
Go would panic otherwise) it returns the old controller with: the deferred list
reduced to the entries scheduled after `now`, in their original order; one
snapshot appended to the published log per entry scheduled at or before `now`,
in list order, each carrying that entry's title and `Channels[idx]`; the device
state equal to the last such snapshot, or unchanged when no entry is due. Due
and kept entries together are a permutation of the old list: nothing is
duplicated, nothing is lost undelivered. -/
theorem tick_delivers_due (uc : StateUseCase) (now : Int) :
    (uc.state.Pause = true → trackListNotifier uc now = some uc) ∧
    (uc.state.Pause = false → ((∃ t ∈ uc.trackList, t.ts ≤ now) → InRange uc) →
      trackListNotifier uc now = some
        { uc with
          trackList := uc.trackList.filter (fun t => now < t.ts)
          published := uc.published ++
            (uc.trackList.filter (fun t => t.ts ≤ now)).map
              (fun t => { uc.state with
                Channel := channelAt uc.cfg.Channels uc.curChannelIdx, Track := t.title })
          state := match (uc.trackList.filter (fun t => t.ts ≤ now)).getLast? with
            | none => uc.state
            | some t => { uc.state with
                Channel := channelAt uc.cfg.Channels uc.curChannelIdx, Track := t.title } } ∧
      List.Perm
        (uc.trackList.filter (fun t => t.ts ≤ now) ++ uc.trackList.filter (fun t => now < t.ts))
        uc.trackList) := by
  refine ⟨(trackListNotifier_spec uc now).1, ?_⟩
  intro hp hidx
  by_cases hdue : ∃ t ∈ uc.trackList, t.ts ≤ now
  · obtain ⟨h0, h1⟩ := hidx hdue
    obtain ⟨ch, hch, ht, hperm⟩ := (trackListNotifier_spec uc now).2 hp h0 h1
    rw [hch]
    exact ⟨ht, hperm⟩
  · have hnone : ∀ t ∈ uc.trackList, now < t.ts := by
      intro t ht
      by_contra hlt
      exact hdue ⟨t, ht, by omega⟩
    have hf1 : uc.trackList.filter (fun t => t.ts ≤ now) = [] := by
      simp only [List.filter_eq_nil_iff, decide_eq_true_eq]
      intro t ht
      have := hnone t ht
      omega
    have hf2 : uc.trackList.filter (fun t => now < t.ts) = uc.trackList := by
      simp only [List.filter_eq_self, decide_eq_true_eq]
      exact hnone
    rw [hf1, hf2]
    refine ⟨?_, by simp⟩
    simp [trackListNotifier, hp, notifierRange_none_due now uc.trackList uc [] hnone]

/-- Witness for C10: while paused the tick at 15 changes nothing; on the
controller with "Song2" scheduled at 15 and "Song3" at 20 the tick at 15
delivers "Song2" with channel A and keeps "Song3". -/
theorem tick_delivers_due_witness :
    trackListNotifier ucPaused 15 = some ucPaused ∧
    trackListNotifier ucDeferred 15 = some
      { ucDeferred with
        trackList := [{ ts := 20, title := "Song3" }]
        published := ucDeferred.published ++
          [{ ucDeferred.state with Channel := channelsABC[0]?, Track := "Song2" }]
        state := { ucDeferred.state with Channel := channelsABC[0]?, Track := "Song2" } } := by
  refine ⟨(tick_delivers_due ucPaused 15).1 (by decide), ?_⟩
  rw [((tick_delivers_due ucDeferred 15).2 (by decide) (fun _ => by decide)).1]
  decide

/-! ## Runs and the index invariant -/

theorem run_cons_eq_some {uc s : StateUseCase} {e : Event} {es : List Event} :
    run uc (e :: es) = some s ↔ ∃ u, step uc e = some u ∧ run u es = some s := by
  simp only [run]
  cases h : step uc e with
  | none => simp
  | some u => simp

theorem channelAt_some_range {cs : List Channel} {i : Int} {ch : Channel}
    (h : channelAt cs i = some ch) : 0 ≤ i ∧ i < cs.length := by
  unfold channelAt at h
  by_cases h0 : 0 ≤ i
  · simp only [h0, if_true] at h
    have := (List.getElem?_eq_some_iff.mp h).1
    omega
  · simp [h0] at h

theorem play_eq_some {uc s : StateUseCase} {playOk b : Bool} (h : play uc playOk = some (s, b)) :
    ∃ ch, channelAt uc.cfg.Channels uc.curChannelIdx = some ch ∧ b = playOk ∧
      s = { uc with
          playerCalls := uc.playerCalls ++ [PlayerCall.Stop] ++ [PlayerCall.Play ch.URL]
          state := if playOk then { uc.state with Channel := some ch } else uc.state } := by
  cases hch : channelAt uc.cfg.Channels uc.curChannelIdx with
  | none => simp [play, hch] at h
  | some ch =>
    rw [play_of_channelAt _ playOk hch] at h
    simp only [Option.some.injEq, Prod.mk.injEq] at h
    exact ⟨ch, rfl, h.2.symm, h.1.symm⟩

theorem Power_eq_some {uc s : StateUseCase} {playOk : Bool} (h : Power uc playOk = some s) :
    (uc.state.Power = true ∧
      s = { uc with
        curChannelIdx := if uc.curChannelIdx = -1 then 0 else uc.curChannelIdx
        pauseExists := false
        pauseDelay := 0
        trackList := []
        playerCalls := uc.playerCalls ++ [PlayerCall.Stop]
        state := { uc.state with Power := false }
        published := uc.published ++ [{ uc.state with Power := false }] }) ∨
    (uc.state.Power = false ∧
      ∃ ch, channelAt uc.cfg.Channels (if uc.curChannelIdx = -1 then 0 else uc.curChannelIdx)
          = some ch ∧
        s = (if playOk then
          { uc with
            curChannelIdx := if uc.curChannelIdx = -1 then 0 else uc.curChannelIdx
            playerCalls := uc.playerCalls ++ [PlayerCall.Stop] ++ [PlayerCall.Play ch.URL]
            state := { uc.state with Channel := some ch, Power := true }
            published := uc.published ++ [{ uc.state with Channel := some ch, Power := true }] }
        else
          { uc with
            curChannelIdx := if uc.curChannelIdx = -1 then 0 else uc.curChannelIdx
            playerCalls := uc.playerCalls ++ [PlayerCall.Stop] ++ [PlayerCall.Play ch.URL] })) := by
  cases hpow : uc.state.Power with
  | true =>
    left
    rw [Power_off_spec uc playOk hpow] at h
    exact ⟨rfl, (Option.some.inj h).symm⟩
  | false =>
    right
    refine ⟨rfl, ?_⟩
    cases hch : channelAt uc.cfg.Channels
        (if uc.curChannelIdx = -1 then 0 else uc.curChannelIdx) with
    | none =>
      exfalso
      by_cases h1 : uc.curChannelIdx = -1
      · simp only [h1, if_true] at hch
        simp [Power, h1, hpow, play, hch] at h
      · simp only [h1, if_false] at hch
        simp [Power, h1, hpow, play, hch] at h
    | some ch =>
      rw [Power_on_spec uc playOk ch hpow hch] at h
      exact ⟨ch, rfl, (Option.some.inj h).symm⟩

theorem NextChannel_eq_some {uc s : StateUseCase} {playOk : Bool}
    (h : NextChannel uc playOk = some s) :
    ∃ ch, channelAt uc.cfg.Channels
        (if uc.curChannelIdx + 1 ≥ (uc.cfg.Channels.length : Int) then 0
          else uc.curChannelIdx + 1) = some ch ∧
      s = { uc with
        curChannelIdx := if uc.curChannelIdx + 1 ≥ (uc.cfg.Channels.length : Int) then 0
          else uc.curChannelIdx + 1
        playerCalls := uc.playerCalls ++ [PlayerCall.Stop] ++ [PlayerCall.Play ch.URL]
        state := if playOk then { uc.state with Channel := some ch } else uc.state } := by
  unfold NextChannel at h
  simp only at h
  split at h
  · exact absurd h (by simp)
  · rename_i u b hp
    obtain ⟨ch, hch, _, hs⟩ := play_eq_some hp
    have hu := Option.some.inj h
    subst hu
    by_cases hw : uc.curChannelIdx + 1 ≥ (uc.cfg.Channels.length : Int)
    · simp only [hw, if_true] at hch hs ⊢
      exact ⟨ch, hch, hs⟩
    · simp only [hw, if_false] at hch hs ⊢
      exact ⟨ch, hch, hs⟩

theorem PrevChannel_eq_some {uc s : StateUseCase} {playOk : Bool}
    (h : PrevChannel uc playOk = some s) :
    ∃ ch, channelAt uc.cfg.Channels
        (if uc.curChannelIdx - 1 < 0 then (uc.cfg.Channels.length : Int) - 1
          else uc.curChannelIdx - 1) = some ch ∧
      s = { uc with
        curChannelIdx := if uc.curChannelIdx - 1 < 0 then (uc.cfg.Channels.length : Int) - 1
          else uc.curChannelIdx - 1
        playerCalls := uc.playerCalls ++ [PlayerCall.Stop] ++ [PlayerCall.Play ch.URL]
        state := if playOk then { uc.state with Channel := some ch } else uc.state } := by
  unfold PrevChannel at h
  simp only at h
  split at h
  · exact absurd h (by simp)
  · rename_i u b hp
    obtain ⟨ch, hch, _, hs⟩ := play_eq_some hp
    have hu := Option.some.inj h
    subst hu
    by_cases hw : uc.curChannelIdx - 1 < 0
    · simp only [hw, if_true] at hch hs ⊢
      exact ⟨ch, hch, hs⟩
    · simp only [hw, if_false] at hch hs ⊢
      exact ⟨ch, hch, hs⟩

theorem DefaultChannel_eq_some {uc s : StateUseCase} {playOk : Bool}
    (h : DefaultChannel uc playOk = some s) :
    ∃ ch, channelAt uc.cfg.Channels 0 = some ch ∧
      s = { uc with
        curChannelIdx := 0
        playerCalls := uc.playerCalls ++ [PlayerCall.Stop] ++ [PlayerCall.Play ch.URL]
        state := if playOk then { uc.state with Channel := some ch } else uc.state } := by
  unfold DefaultChannel at h
  simp only at h
  split at h
  · exact absurd h (by simp)
  · rename_i u b hp
    obtain ⟨ch, hch, _, hs⟩ := play_eq_some hp
    have hu := Option.some.inj h
    subst hu
    exact ⟨ch, hch, hs⟩

theorem disconnectConnectionCallback_eq_some {uc s : StateUseCase} {playOk : Bool}
    (h : disconnectConnectionCallback uc playOk = some s) :
    ∃ ch, channelAt uc.cfg.Channels uc.curChannelIdx = some ch ∧
      s = { uc with
        playerCalls := uc.playerCalls ++ [PlayerCall.Stop] ++ [PlayerCall.Play ch.URL]
        state := if playOk then { uc.state with Channel := some ch } else uc.state } := by
  unfold disconnectConnectionCallback at h
  split at h
  · exact absurd h (by simp)
  · rename_i u b hp
    obtain ⟨ch, hch, _, hs⟩ := play_eq_some hp
    have hu := Option.some.inj h
    subst hu
    exact ⟨ch, hch, hs⟩

theorem changeTrackCallback_eq_some {uc s : StateUseCase} {title : String} {now : Int}
    (h : changeTrackCallback uc title now = some s) :
    (uc.state.Pause = false ∧ uc.pauseExists = false ∧
      ∃ ch, channelAt uc.cfg.Channels uc.curChannelIdx = some ch ∧
        s = { uc with
          state := { uc.state with Track := title, Channel := some ch }
          published :=
            if uc.state.Mute then uc.published
            else uc.published ++ [{ uc.state with Track := title, Channel := some ch }] }) ∨
    (¬ (uc.state.Pause = false ∧ uc.pauseExists = false) ∧
      s = { uc with
        trackList := uc.trackList ++
          [{ ts := wrapInt64 (now + uc.pauseDelay), title := title }] }) := by
  by_cases hc : uc.state.Pause = false ∧ uc.pauseExists = false
  · left
    obtain ⟨hp, he⟩ := hc
    refine ⟨hp, he, ?_⟩
    cases hch : channelAt uc.cfg.Channels uc.curChannelIdx with
    | none => simp [changeTrackCallback, hp, he, hch] at h
    | some ch =>
      refine ⟨ch, rfl, ?_⟩
      have hE : changeTrackCallback uc title now = some
          { uc with
            state := { uc.state with Track := title, Channel := some ch }
            published :=
              if uc.state.Mute then uc.published
              else uc.published ++ [{ uc.state with Track := title, Channel := some ch }] } := by
        cases hm : uc.state.Mute <;> simp [changeTrackCallback, hp, he, hch, hm, publish]
      rw [hE] at h
      exact (Option.some.inj h).symm
  · right
    refine ⟨hc, ?_⟩
    have hb : (!uc.state.Pause && !uc.pauseExists) = false := by
      cases hp : uc.state.Pause <;> cases he : uc.pauseExists <;> simp_all
    simp [changeTrackCallback, hb, addToTrackList] at h
    exact h.symm

theorem notifierRange_frame (curTs : Int) (l : List track) :
    ∀ (uc s : StateUseCase) (kept k : List track),
      notifierRange curTs l uc kept = some (s, k) →
      s.cfg = uc.cfg ∧ s.curChannelIdx = uc.curChannelIdx ∧ s.pauseBegin = uc.pauseBegin ∧
      s.pauseDelay = uc.pauseDelay ∧ s.pauseExists = uc.pauseExists ∧
      s.notifierStarted = uc.notifierStarted ∧ s.playerCalls = uc.playerCalls ∧
      s.state.Power = uc.state.Power ∧ s.state.Mute = uc.state.Mute ∧
      s.state.Pause = uc.state.Pause ∧
      k = kept ++ l.filter (fun t => curTs < t.ts) ∧
      ((∃ t ∈ l, t.ts ≤ curTs) → InRange uc) := by
  induction l with
  | nil =>
    intro uc s kept k h
    simp only [notifierRange, Option.some.injEq, Prod.mk.injEq] at h
    obtain ⟨h1, h2⟩ := h
    subst h1 h2
    simp
  | cons t rest ih =>
    intro uc s kept k h
    by_cases hdue : t.ts ≤ curTs
    · have hnot : ¬ curTs < t.ts := by omega
      rw [notifierRange, if_pos hdue] at h
      cases hch : channelAt uc.cfg.Channels uc.curChannelIdx with
      | none => simp [hch] at h
      | some ch =>
        simp only [hch] at h
        have := ih _ s kept k h
        simp only [publish] at this
        obtain ⟨h1, h2, h3, h4, h5, h6, h7, h8, h9, h10, h11, _⟩ := this
        refine ⟨h1, h2, h3, h4, h5, h6, h7, h8, h9, h10, ?_, ?_⟩
        · simp [List.filter_cons, hnot, h11]
        · intro _
          exact channelAt_some_range hch
    · have hnot : curTs < t.ts := by omega
      rw [notifierRange, if_neg hdue] at h
      obtain ⟨h1, h2, h3, h4, h5, h6, h7, h8, h9, h10, h11, h12⟩ := ih _ s _ k h
      refine ⟨h1, h2, h3, h4, h5, h6, h7, h8, h9, h10, ?_, ?_⟩
      · simp [List.filter_cons, hnot, h11]
      · rintro ⟨x, hx, hxd⟩
        rcases List.mem_cons.mp hx with hx | hx
        · subst hx; exact absurd hxd hdue
        · exact h12 ⟨x, hx, hxd⟩

theorem trackListNotifier_frame {uc s : StateUseCase} {now : Int}
    (h : trackListNotifier uc now = some s) :
    s.cfg = uc.cfg ∧ s.curChannelIdx = uc.curChannelIdx ∧ s.pauseBegin = uc.pauseBegin ∧
    s.pauseDelay = uc.pauseDelay ∧ s.pauseExists = uc.pauseExists ∧
    s.notifierStarted = uc.notifierStarted ∧ s.playerCalls = uc.playerCalls ∧
    s.state.Power = uc.state.Power ∧ s.state.Mute = uc.state.Mute ∧
    s.state.Pause = uc.state.Pause ∧
    (s.trackList = uc.trackList ∨ s.trackList = uc.trackList.filter (fun t => now < t.ts)) := by
  unfold trackListNotifier at h
  split at h
  · split at h
    · exact absurd h (by simp)
    · rename_i u kept hr
      have hs := Option.some.inj h
      subst hs
      obtain ⟨h1, h2, h3, h4, h5, h6, h7, h8, h9, h10, h11, _⟩ :=
        notifierRange_frame now uc.trackList uc u [] kept hr
      refine ⟨h1, h2, h3, h4, h5, h6, h7, h8, h9, h10, Or.inr ?_⟩
      simpa using h11
  · have hs := Option.some.inj h
    subst hs
    simp

theorem step_index {uc s : StateUseCase} {e : Event} (hinv : IdxInv uc)
    (h : step uc e = some s) :
    s.cfg = uc.cfg ∧ IdxInv s ∧ (InRange uc → InRange s) ∧ (e.isPower = true → InRange s) := by
  cases e with
  | power ok =>
    simp only [step] at h
    rcases Power_eq_some h with ⟨hon, hs⟩ | ⟨hoff, ch, hch, hs⟩
    · have hr : InRange uc := by
        rcases hinv with ⟨_, hp⟩ | hr
        · rw [hon] at hp; exact absurd hp (by simp)
        · exact hr
      have hne : uc.curChannelIdx ≠ -1 := by
        have := hr.1
        omega
      have hr2 : InRange s := by
        subst hs
        simpa [InRange, hne] using hr
      exact ⟨by subst hs; rfl, Or.inr hr2, fun _ => hr2, fun _ => hr2⟩
    · have hr := channelAt_some_range hch
      have hr2 : InRange s := by
        subst hs
        cases ok <;> simpa [InRange] using hr
      exact ⟨by subst hs; cases ok <;> rfl, Or.inr hr2, fun _ => hr2, fun _ => hr2⟩
  | pause ok now1 now2 =>
    simp only [step, Option.some.injEq] at h
    subst h
    have hcfg : (Pause uc ok now1 now2).cfg = uc.cfg := by
      unfold Pause; simp only [recalculateTrackList, publish]; split_ifs <;> rfl
    have hi : (Pause uc ok now1 now2).curChannelIdx = uc.curChannelIdx := by
      unfold Pause; simp only [recalculateTrackList, publish]; split_ifs <;> rfl
    have hp : (Pause uc ok now1 now2).state.Power = uc.state.Power := by
      unfold Pause; simp only [recalculateTrackList, publish]; split_ifs <;> rfl
    refine ⟨hcfg, ?_, ?_, by simp [Event.isPower]⟩
    · simpa [IdxInv, InRange, hcfg, hi, hp] using hinv
    · intro hr; simpa [InRange, hcfg, hi] using hr
  | mute ok =>
    simp only [step, Option.some.injEq] at h
    subst h
    have hcfg : (Mute uc ok).cfg = uc.cfg := by
      unfold Mute; simp only [publish]; split_ifs <;> rfl
    have hi : (Mute uc ok).curChannelIdx = uc.curChannelIdx := by
      unfold Mute; simp only [publish]; split_ifs <;> rfl
    have hp : (Mute uc ok).state.Power = uc.state.Power := by
      unfold Mute; simp only [publish]; split_ifs <;> rfl
    refine ⟨hcfg, ?_, ?_, by simp [Event.isPower]⟩
    · simpa [IdxInv, InRange, hcfg, hi, hp] using hinv
    · intro hr; simpa [InRange, hcfg, hi] using hr
  | nextChannel ok =>
    simp only [step] at h
    obtain ⟨ch, hch, hs⟩ := NextChannel_eq_some h
    have hr := channelAt_some_range hch
    have hr2 : InRange s := by subst hs; simpa [InRange] using hr
    exact ⟨by subst hs; rfl, Or.inr hr2, fun _ => hr2, by simp [Event.isPower]⟩
  | prevChannel ok =>
    simp only [step] at h
    obtain ⟨ch, hch, hs⟩ := PrevChannel_eq_some h
    have hr := channelAt_some_range hch
    have hr2 : InRange s := by subst hs; simpa [InRange] using hr
    exact ⟨by subst hs; rfl, Or.inr hr2, fun _ => hr2, by simp [Event.isPower]⟩
  | defaultChannel ok =>
    simp only [step] at h
    obtain ⟨ch, hch, hs⟩ := DefaultChannel_eq_some h
    have hr := channelAt_some_range hch
    have hr2 : InRange s := by subst hs; simpa [InRange] using hr
    exact ⟨by subst hs; rfl, Or.inr hr2, fun _ => hr2, by simp [Event.isPower]⟩
  | trackChanged title now =>
    simp only [step] at h
    rcases changeTrackCallback_eq_some h with ⟨_, _, ch, hch, hs⟩ | ⟨_, hs⟩
    · have hr := channelAt_some_range hch
      have hr2 : InRange s := by subst hs; simpa [InRange] using hr
      exact ⟨by subst hs; rfl, Or.inr hr2, fun _ => hr2, by simp [Event.isPower]⟩
    · subst hs
      exact ⟨rfl, by simpa [IdxInv, InRange] using hinv, fun hr => by simpa [InRange] using hr,
        by simp [Event.isPower]⟩
  | reconnect ok =>
    simp only [step] at h
    obtain ⟨ch, hch, hs⟩ := disconnectConnectionCallback_eq_some h
    have hr := channelAt_some_range hch
    have hr2 : InRange s := by subst hs; simpa [InRange] using hr
    exact ⟨by subst hs; rfl, Or.inr hr2, fun _ => hr2, by simp [Event.isPower]⟩
  | tick now =>
    simp only [step] at h
    obtain ⟨hcfg, hi, _, _, _, _, _, hp, _, _, _⟩ := trackListNotifier_frame h
    refine ⟨hcfg, ?_, ?_, by simp [Event.isPower]⟩
    · simpa [IdxInv, InRange, hcfg, hi, hp] using hinv
    · intro hr; simpa [InRange, hcfg, hi] using hr

theorem run_index (evs : List Event) :
    ∀ {uc s : StateUseCase}, IdxInv uc → run uc evs = some s →
      s.cfg = uc.cfg ∧ IdxInv s ∧ (InRange uc → InRange s) ∧
      ((∃ e ∈ evs, e.isPower = true) → InRange s) := by
  induction evs with
  | nil =>
    intro uc s hinv h
    simp only [run, Option.some.injEq] at h
    subst h
    exact ⟨rfl, hinv, id, by simp⟩
  | cons e es ih =>
    intro uc s hinv h
    obtain ⟨u, hu, hs⟩ := run_cons_eq_some.mp h
    obtain ⟨hcfg, hinvu, hru, hpu⟩ := step_index hinv hu
    obtain ⟨hcfg2, hinvs, hrs, hps⟩ := ih hinvu hs
    refine ⟨by rw [hcfg2, hcfg], hinvs, fun hr => hrs (hru hr), ?_⟩
    rintro ⟨x, hx, hxp⟩
    rcases List.mem_cons.mp hx with hx | hx
    · subst hx
      exact hrs (hpu hxp)
    · exact hps ⟨x, hx, hxp⟩

theorem Safe.idxInv {uc : StateUseCase} (h : Safe uc) : IdxInv uc := by
  rcases h.2 with hr | ⟨h1, h2, _, _⟩
  · exact Or.inr hr
  · exact Or.inl ⟨h1, h2⟩

theorem step_safe {uc : StateUseCase} {e : Event} (hs : Safe uc) (hen : enabled uc e = true) :
    ∃ s, step uc e = some s ∧ Safe s := by
  obtain ⟨hN, hcase⟩ := hs
  have hinv : IdxInv uc := Safe.idxInv ⟨hN, hcase⟩
  -- it is enough to show that the step returns, and that an index still
  -- unselected afterwards comes with an empty list and no `Play` call
  suffices hx : ∃ s, step uc e = some s ∧
      (InRange s ∨ (s.trackList = [] ∧ pipelineStarted s = false)) by
    obtain ⟨s, hstep, hres⟩ := hx
    obtain ⟨hcfg, hinvs, _, _⟩ := step_index hinv hstep
    refine ⟨s, hstep, by rw [hcfg]; exact hN, ?_⟩
    rcases hres with hr | ⟨hl, hp⟩
    · exact Or.inl hr
    · rcases hinvs with ⟨h1, h2⟩ | hr
      · exact Or.inr ⟨h1, h2, hl, hp⟩
      · exact Or.inl hr
  have hlo : -1 ≤ uc.curChannelIdx ∧ uc.curChannelIdx < uc.cfg.Channels.length := by
    rcases hcase with hr | ⟨h1, _⟩
    · exact ⟨by have := hr.1; omega, hr.2⟩
    · omega
  have hsel : uc.curChannelIdx = -1 ∨
      (0 ≤ uc.curChannelIdx ∧ uc.curChannelIdx < uc.cfg.Channels.length) := by
    rcases hcase with hr | ⟨h1, _⟩
    · exact Or.inr hr
    · exact Or.inl h1
  -- a step that returns after a `play()` call leaves the index in range
  have hplay : ∀ s, step uc e = some s → (e.isPower = true ∨ InRange uc) →
      ∃ s, step uc e = some s ∧
        (InRange s ∨ (s.trackList = [] ∧ pipelineStarted s = false)) := by
    intro s hstep hc
    obtain ⟨_, _, hr1, hr2⟩ := step_index hinv hstep
    rcases hc with hc | hc
    · exact ⟨s, hstep, Or.inl (hr2 hc)⟩
    · exact ⟨s, hstep, Or.inl (hr1 hc)⟩
  cases e with
  | power ok =>
    cases hpow : uc.state.Power with
    | true => exact hplay _ (Power_off_spec uc ok hpow) (Or.inl rfl)
    | false =>
      obtain ⟨ch, hch⟩ := selected_channel_isSome uc hN hsel
      exact hplay _ (Power_on_spec uc ok ch hpow hch) (Or.inl rfl)
  | pause ok now1 now2 =>
    refine ⟨_, rfl, ?_⟩
    rcases hcase with hr | ⟨_, _, hl, hp⟩
    · left
      have := (step_index hinv (rfl : step uc (.pause ok now1 now2) = some _)).2.2.1 hr
      exact this
    · right
      constructor
      · unfold Pause; simp only [recalculateTrackList, publish]; split_ifs <;> simp [hl]
      · unfold pipelineStarted at hp ⊢
        unfold Pause; simp only [recalculateTrackList, publish]
        split_ifs <;> simpa using hp
  | mute ok =>
    refine ⟨_, rfl, ?_⟩
    rcases hcase with hr | ⟨_, _, hl, hp⟩
    · left
      exact (step_index hinv (rfl : step uc (.mute ok) = some _)).2.2.1 hr
    · right
      constructor
      · unfold Mute; simp only [publish]; split_ifs <;> simp [hl]
      · unfold pipelineStarted at hp ⊢
        unfold Mute; simp only [publish]
        split_ifs <;> simpa using hp
  | nextChannel ok =>
    obtain ⟨s, hstep, _, _⟩ := NextChannel_spec uc ok hN hlo.1 hlo.2
    have hr := channelAt_some_range (NextChannel_eq_some hstep).choose_spec.1
    refine ⟨s, hstep, Or.inl ?_⟩
    have hs := (NextChannel_eq_some hstep).choose_spec.2
    rw [hs]
    simpa [InRange] using hr
  | prevChannel ok =>
    obtain ⟨s, hstep, _, _⟩ := PrevChannel_spec uc ok hN hlo.2
    have hr := channelAt_some_range (PrevChannel_eq_some hstep).choose_spec.1
    refine ⟨s, hstep, Or.inl ?_⟩
    have hs := (PrevChannel_eq_some hstep).choose_spec.2
    rw [hs]
    simpa [InRange] using hr
  | defaultChannel ok =>
    obtain ⟨ch, hch⟩ := channelAt_isSome uc.cfg.Channels 0 (by omega) (by omega)
    have hp := play_of_channelAt { uc with curChannelIdx := 0 } ok hch
    cases hstep : step uc (.defaultChannel ok) with
    | none => simp [step, DefaultChannel, hp] at hstep
    | some s =>
      refine ⟨s, rfl, Or.inl ?_⟩
      obtain ⟨ch2, hch2, hs⟩ := DefaultChannel_eq_some hstep
      have hr := channelAt_some_range hch2
      rw [hs]
      simpa [InRange] using hr
  | trackChanged title now =>
    have hr : InRange uc := by
      rcases hcase with hr | ⟨_, _, _, hp⟩
      · exact hr
      · simp [enabled, hp] at hen
    obtain ⟨ch, hch⟩ := channelAt_isSome _ _ hr.1 hr.2
    by_cases hc : uc.state.Pause = false ∧ uc.pauseExists = false
    · have hE : changeTrackCallback uc title now = some
          { uc with
            state := { uc.state with Track := title, Channel := some ch }
            published :=
              if uc.state.Mute then uc.published
              else uc.published ++ [{ uc.state with Track := title, Channel := some ch }] } := by
        cases hm : uc.state.Mute <;> simp [changeTrackCallback, hc.1, hc.2, hch, hm, publish]
      exact hplay _ hE (Or.inr hr)
    · have hb : (!uc.state.Pause && !uc.pauseExists) = false := by
        cases hp : uc.state.Pause <;> cases he : uc.pauseExists <;> simp_all
      have hE : changeTrackCallback uc title now = some (addToTrackList uc title now) := by
        simp [changeTrackCallback, hb]
      exact hplay _ hE (Or.inr hr)
  | reconnect ok =>
    have hr : InRange uc := by
      rcases hcase with hr | ⟨_, _, _, hp⟩
      · exact hr
      · simp [enabled, hp] at hen
    obtain ⟨ch, hch⟩ := channelAt_isSome _ _ hr.1 hr.2
    have hp := play_of_channelAt uc ok hch
    cases hstep : step uc (.reconnect ok) with
    | none => simp [step, disconnectConnectionCallback, hp] at hstep
    | some s =>
      exact ⟨s, rfl, Or.inl ((step_index hinv hstep).2.2.1 hr)⟩
  | tick now =>
    rcases hcase with hr | ⟨_, _, hl, hp⟩
    · cases hpa : uc.state.Pause with
      | true => exact hplay _ ((trackListNotifier_spec uc now).1 hpa) (Or.inr hr)
      | false =>
        obtain ⟨ch, _, ht, _⟩ := (trackListNotifier_spec uc now).2 hpa hr.1 hr.2
        exact hplay _ ht (Or.inr hr)
    · cases hpa : uc.state.Pause with
      | true =>
        exact ⟨uc, (trackListNotifier_spec uc now).1 hpa, Or.inr ⟨hl, hp⟩⟩
      | false =>
        refine ⟨{ uc with trackList := [] }, ?_, Or.inr ⟨rfl, hp⟩⟩
        simp [step, trackListNotifier, hpa, hl, notifierRange]

theorem run_safe (evs : List Event) :
    ∀ {uc : StateUseCase}, Safe uc → admissible uc evs = true →
      ∃ s, run uc evs = some s ∧ Safe s := by
  induction evs with
  | nil => intro uc hs _; exact ⟨uc, rfl, hs⟩
  | cons e es ih =>
    intro uc hs hadm
    simp only [admissible, Bool.and_eq_true] at hadm
    obtain ⟨u, hu, hsu⟩ := step_safe hs hadm.1
    have hadm2 := hadm.2
    simp only [hu] at hadm2
    obtain ⟨s, hrun, hss⟩ := ih hsu hadm2
    exact ⟨s, run_cons_eq_some.mpr ⟨u, hu, hrun⟩, hss⟩

/-- C9: from the initial state (index -1, power off), over N ≥ 1 channels,
every admissible sequence of commands, pipeline callbacks and ticks runs without
panic, whatever `Play` returns; and in every state reached by any sequence of
events: power true implies `0 ≤ idx ≤ N-1`; `idx = -1` implies that no `Power()`
call is in the sequence; and once `idx ≠ -1` it stays different from -1 along
every continuation. -/
theorem index_invariant_reachable (cfg : StateConfig) (evs : List Event) :
    (1 ≤ cfg.Channels.length → admissible (NewStateUseCase cfg) evs = true →
      ∃ s, run (NewStateUseCase cfg) evs = some s) ∧
    (∀ s, run (NewStateUseCase cfg) evs = some s →
      (s.state.Power = true →
        0 ≤ s.curChannelIdx ∧ s.curChannelIdx ≤ (cfg.Channels.length : Int) - 1) ∧
      (s.curChannelIdx = -1 → ∀ e ∈ evs, e.isPower = false) ∧
      (s.curChannelIdx ≠ -1 →
        ∀ evs2 s2, run s evs2 = some s2 → s2.curChannelIdx ≠ -1)) := by
  have hinit : IdxInv (NewStateUseCase cfg) := Or.inl ⟨rfl, rfl⟩
  constructor
  · intro hN hadm
    have hsafe : Safe (NewStateUseCase cfg) := ⟨hN, Or.inr ⟨rfl, rfl, rfl, rfl⟩⟩
    obtain ⟨s, hs, _⟩ := run_safe evs hsafe hadm
    exact ⟨s, hs⟩
  · intro s hs
    obtain ⟨hcfg, hinv, _, hpow⟩ := run_index evs hinit hs
    have hcfg2 : s.cfg.Channels.length = cfg.Channels.length := by rw [hcfg]; rfl
    refine ⟨?_, ?_, ?_⟩
    · intro hp
      rcases hinv with ⟨_, hoff⟩ | hr
      · rw [hp] at hoff; exact absurd hoff (by simp)
      · have h1 := hr.1
        have h2 := hr.2
        rw [hcfg2] at h2
        omega
    · intro hidx e he
      cases hpe : e.isPower with
      | false => rfl
      | true =>
        have hr := hpow ⟨e, he, hpe⟩
        have := hr.1
        omega
    · intro hne evs2 s2 hs2
      have hr : InRange s := by
        rcases hinv with ⟨h1, _⟩ | hr
        · exact absurd h1 hne
        · exact hr
      have hr2 := (run_index evs2 hinv hs2).2.2.1 hr
      have := hr2.1
      omega

/-- Witness for C9: a run over A, B, C mixing commands and callbacks, and the
index bound in the state reached by the first `Power()`. -/
theorem index_invariant_reachable_witness :
    (∃ s, run (NewStateUseCase cfgABC)
      [.power true, .pause true 10 10, .trackChanged "Song2" 12, .prevChannel false,
        .tick 13, .power false] = some s) ∧
    (ucOn.state.Power = true →
      0 ≤ ucOn.curChannelIdx ∧ ucOn.curChannelIdx ≤ (cfgABC.Channels.length : Int) - 1) :=
  ⟨(index_invariant_reachable cfgABC
      [.power true, .pause true 10 10, .trackChanged "Song2" 12, .prevChannel false,
        .tick 13, .power false]).1 (by decide) (by decide),
   ((index_invariant_reachable cfgABC [.power true]).2 ucOn (by decide)).1⟩

/-! ## Pause -/

theorem Pause_fail_spec (uc : StateUseCase) (now1 now2 : Int) :
    Pause uc false now1 now2 =
      { uc with playerCalls := uc.playerCalls ++ [PlayerCall.Pause] } := by
  simp [Pause]

theorem Pause_start_spec (uc : StateUseCase) (now1 now2 : Int) (hp : uc.state.Pause = false) :
    Pause uc true now1 now2 =
      { uc with
        playerCalls := uc.playerCalls ++ [PlayerCall.Pause]
        notifierStarted := true
        pauseBegin := now1
        pauseExists := true
        state := { uc.state with Pause := true }
        published := uc.published ++ [{ uc.state with Pause := true }] } := by
  simp [Pause, hp, publish]

theorem Pause_resume_wrap (uc : StateUseCase) (now1 now2 : Int) (hp : uc.state.Pause = true) :
    Pause uc true now1 now2 =
      { uc with
        playerCalls := uc.playerCalls ++ [PlayerCall.Pause]
        trackList := uc.trackList.map
          (fun t => { t with ts := wrapInt64 (t.ts + wrapInt64 (now1 - uc.pauseBegin)) })
        pauseDelay := wrapInt64 (uc.pauseDelay + wrapInt64 (now2 - uc.pauseBegin))
        pauseBegin := 0
        state := { uc.state with Pause := false }
        published := uc.published ++ [{ uc.state with Pause := false }] } := by
  simp [Pause, hp, publish, recalculateTrackList]

theorem Pause_resume_spec (uc : StateUseCase) (now1 now2 : Int) (hp : uc.state.Pause = true)
    (h1 : FitsInt64 (now1 - uc.pauseBegin)) (h2 : FitsInt64 (now2 - uc.pauseBegin))
    (h3 : FitsInt64 (uc.pauseDelay + (now2 - uc.pauseBegin)))
    (h4 : ∀ t ∈ uc.trackList, FitsInt64 (t.ts + (now1 - uc.pauseBegin))) :
    Pause uc true now1 now2 =
      { uc with
        playerCalls := uc.playerCalls ++ [PlayerCall.Pause]
        trackList := uc.trackList.map (fun t => { t with ts := t.ts + (now1 - uc.pauseBegin) })
        pauseDelay := uc.pauseDelay + (now2 - uc.pauseBegin)
        pauseBegin := 0
        state := { uc.state with Pause := false }
        published := uc.published ++ [{ uc.state with Pause := false }] } := by
  rw [Pause_resume_wrap uc now1 now2 hp, wrapInt64_of_fits h1, wrapInt64_of_fits h2,
    wrapInt64_of_fits h3]
  have hmap : uc.trackList.map
        (fun t => ({ t with ts := wrapInt64 (t.ts + (now1 - uc.pauseBegin)) } : track))
      = uc.trackList.map (fun t => { t with ts := t.ts + (now1 - uc.pauseBegin) }) := by
    apply List.map_congr_left
    intro t ht
    rw [wrapInt64_of_fits (h4 t ht)]
  rw [hmap]

/-! ## Timing invariant -/

theorem TimeInv.mono {uc : StateUseCase} {last last1 : Int} (h : TimeInv uc last)
    (h1 : last ≤ last1) (h2 : last1 < clockBound) : TimeInv uc last1 := by
  obtain ⟨a, b, c, d, e, f1, f2, g⟩ := h
  refine ⟨by omega, h2, c, by omega, e, f1, ?_, ?_⟩
  · intro hp
    have := f2 hp
    omega
  · intro t ht
    have := g t ht
    omega

theorem TimeInv.delay_le {uc : StateUseCase} {last : Int} (h : TimeInv uc last) :
    uc.pauseDelay ≤ last := by
  obtain ⟨a, b, c, d, e, f1, f2, g⟩ := h
  cases hp : uc.state.Pause with
  | true => have := f1 hp; omega
  | false => exact f2 hp

theorem TimeInv.fits {uc : StateUseCase} {last now1 now2 : Int} (h : TimeInv uc last)
    (hp : uc.state.Pause = true) (h1 : last ≤ now1) (h2 : now1 ≤ now2)
    (h3 : now2 < clockBound) :
    0 ≤ now1 - uc.pauseBegin ∧
    FitsInt64 (now1 - uc.pauseBegin) ∧ FitsInt64 (now2 - uc.pauseBegin) ∧
    FitsInt64 (uc.pauseDelay + (now2 - uc.pauseBegin)) ∧
    (∀ t ∈ uc.trackList, FitsInt64 (t.ts + (now1 - uc.pauseBegin))) := by
  obtain ⟨a, b, c, d, e, f1, f2, g⟩ := h
  have f := f1 hp
  unfold clockBound at *
  unfold FitsInt64
  refine ⟨by omega, by omega, by omega, by omega, ?_⟩
  intro t ht
  have := g t ht
  omega

theorem step_time {uc s : StateUseCase} {e : Event} {last : Int} (hinv : TimeInv uc last)
    (hclk : eventClockOk last e = true) (h : step uc e = some s) :
    TimeInv s (eventClockEnd last e) := by
  have hframe : ∀ u : StateUseCase, u.pauseBegin = uc.pauseBegin → u.pauseDelay = uc.pauseDelay →
      u.state.Pause = uc.state.Pause → u.trackList = uc.trackList → TimeInv u last := by
    intro u h1 h2 h3 h4
    unfold TimeInv at hinv ⊢
    rw [h1, h2, h3, h4]
    exact hinv
  have hpd := hinv.delay_le
  cases e with
  | power ok =>
    simp only [step] at h
    simp only [eventClockEnd]
    rcases Power_eq_some h with ⟨_, hs⟩ | ⟨_, ch, _, hs⟩
    · subst hs
      obtain ⟨a, b, c, d, e, f1, f2, g⟩ := hinv
      exact ⟨a, b, c, d, by simp, fun _ => c, fun _ => a, by simp⟩
    · subst hs
      cases ok <;> exact hframe _ rfl rfl rfl rfl
  | pause ok now1 now2 =>
    simp only [step, Option.some.injEq] at h
    simp only [eventClockOk, Bool.and_eq_true, decide_eq_true_eq] at hclk
    obtain ⟨⟨hc1, hc2⟩, hc3⟩ := hclk
    simp only [eventClockEnd]
    subst h
    cases ok with
    | false =>
      rw [Pause_fail_spec]
      exact (hframe _ rfl rfl rfl rfl).mono (by omega) hc3
    | true =>
      cases hp : uc.state.Pause with
      | false =>
        rw [Pause_start_spec uc now1 now2 hp]
        obtain ⟨a, b, c, d, e, f1, f2, g⟩ := hinv
        refine ⟨by omega, hc3, ?_, ?_, e, ?_, ?_, ?_⟩
        · show 0 ≤ now1
          omega
        · show now1 ≤ now2
          exact hc2
        · intro _
          show uc.pauseDelay ≤ now1
          omega
        · intro hq
          simp at hq
        · intro t ht
          have := g t ht
          show 0 ≤ t.ts ∧ t.ts ≤ now2 + uc.pauseDelay
          omega
      | true =>
        obtain ⟨f0, k1, k2, k3, k4⟩ := hinv.fits hp hc1 hc2 hc3
        rw [Pause_resume_spec uc now1 now2 hp k1 k2 k3 k4]
        obtain ⟨a, b, c, d, e, f1, f2, g⟩ := hinv
        have f := f1 hp
        refine ⟨by omega, hc3, le_refl _, by show (0 : Int) ≤ now2; omega, ?_, ?_, ?_, ?_⟩
        · show 0 ≤ uc.pauseDelay + (now2 - uc.pauseBegin)
          omega
        · intro hq
          simp at hq
        · intro _
          show uc.pauseDelay + (now2 - uc.pauseBegin) ≤ now2
          omega
        · intro t ht
          simp only [List.mem_map] at ht
          obtain ⟨t0, ht0, rfl⟩ := ht
          have := g t0 ht0
          show 0 ≤ t0.ts + (now1 - uc.pauseBegin) ∧
            t0.ts + (now1 - uc.pauseBegin) ≤ now2 + (uc.pauseDelay + (now2 - uc.pauseBegin))
          omega
  | mute ok =>
    simp only [step, Option.some.injEq] at h
    simp only [eventClockEnd]
    subst h
    unfold Mute
    simp only [publish]
    split_ifs <;> exact hframe _ rfl rfl rfl rfl
  | nextChannel ok =>
    simp only [step] at h
    obtain ⟨ch, _, hs⟩ := NextChannel_eq_some h
    subst hs
    cases ok <;> exact hframe _ rfl rfl rfl rfl
  | prevChannel ok =>
    simp only [step] at h
    obtain ⟨ch, _, hs⟩ := PrevChannel_eq_some h
    subst hs
    cases ok <;> exact hframe _ rfl rfl rfl rfl
  | defaultChannel ok =>
    simp only [step] at h
    obtain ⟨ch, _, hs⟩ := DefaultChannel_eq_some h
    subst hs
    cases ok <;> exact hframe _ rfl rfl rfl rfl
  | reconnect ok =>
    simp only [step] at h
    obtain ⟨ch, _, hs⟩ := disconnectConnectionCallback_eq_some h
    subst hs
    cases ok <;> exact hframe _ rfl rfl rfl rfl
  | trackChanged title now =>
    simp only [step] at h
    simp only [eventClockOk, Bool.and_eq_true, decide_eq_true_eq] at hclk
    simp only [eventClockEnd]
    rcases changeTrackCallback_eq_some h with ⟨_, _, ch, _, hs⟩ | ⟨_, hs⟩
    · subst hs
      exact (hframe _ rfl rfl rfl rfl).mono hclk.1 hclk.2
    · subst hs
      obtain ⟨a, b, c, d, e, f1, f2, g⟩ := hinv
      have hfit : FitsInt64 (now + uc.pauseDelay) := by
        unfold FitsInt64
        unfold clockBound at *
        omega
      rw [wrapInt64_of_fits hfit]
      refine ⟨by omega, hclk.2, c, by show uc.pauseBegin ≤ now; omega, e, f1, ?_, ?_⟩
      · intro _
        show uc.pauseDelay ≤ now
        omega
      · intro t ht
        simp only [List.mem_append, List.mem_singleton] at ht
        show 0 ≤ t.ts ∧ t.ts ≤ now + uc.pauseDelay
        rcases ht with ht | rfl
        · have := g t ht
          omega
        · simp only
          omega
  | tick now =>
    simp only [step] at h
    simp only [eventClockOk, Bool.and_eq_true, decide_eq_true_eq] at hclk
    simp only [eventClockEnd]
    obtain ⟨_, _, h3, h4, _, _, _, _, _, h10, h11⟩ := trackListNotifier_frame h
    obtain ⟨a, b, c, d, e, f1, f2, g⟩ := hinv
    refine ⟨by omega, hclk.2, by omega, by omega, by omega, ?_, ?_, ?_⟩
    · rw [h10, h4, h3]
      exact f1
    · rw [h10, h4]
      intro hq
      have := f2 hq
      omega
    · intro t ht
      have hmem : t ∈ uc.trackList := by
        rcases h11 with h11 | h11
        · rw [h11] at ht; exact ht
        · rw [h11] at ht; exact (List.mem_filter.mp ht).1
      have := g t hmem
      rw [h4]
      omega

theorem run_time (evs : List Event) :
    ∀ {uc s : StateUseCase} {last : Int}, TimeInv uc last → clockOk last evs = true →
      run uc evs = some s → TimeInv s (clockEnd last evs) := by
  induction evs with
  | nil =>
    intro uc s last hinv _ h
    simp only [run, Option.some.injEq] at h
    subst h
    exact hinv
  | cons e es ih =>
    intro uc s last hinv hclk h
    simp only [clockOk, Bool.and_eq_true] at hclk
    obtain ⟨u, hu, hs⟩ := run_cons_eq_some.mp h
    exact ih (step_time hinv hclk.1 hu) hclk.2 hs

theorem TimeInv_init (cfg : StateConfig) : TimeInv (NewStateUseCase cfg) 0 := by
  refine ⟨le_refl _, by decide, le_refl _, le_refl _, le_refl _, ?_, ?_, ?_⟩
  · intro _; exact le_refl _
  · intro _; exact le_refl _
  · intro t ht
    simp [NewStateUseCase] at ht

/-! ## Resume -/

theorem pause_cycles_monotone (cycles : List Event) :
    ∀ (uc : StateUseCase) (last : Int) (l0 : List track), TimeInv uc last →
      (∀ e ∈ cycles, e.isPause = true) → clockOk last cycles = true →
      List.Forall₂ (fun a b : track => b.title = a.title ∧ a.ts ≤ b.ts) l0 uc.trackList →
      ∃ s, run uc cycles = some s ∧
        List.Forall₂ (fun a b : track => b.title = a.title ∧ a.ts ≤ b.ts) l0 s.trackList := by
  induction cycles with
  | nil => intro uc last l0 _ _ _ h; exact ⟨uc, rfl, h⟩
  | cons e es ih =>
    intro uc last l0 hinv hall hclk hrel
    have he := hall e (List.mem_cons_self _ _)
    have hes : ∀ x ∈ es, x.isPause = true := fun x hx => hall x (List.mem_cons_of_mem _ hx)
    simp only [clockOk, Bool.and_eq_true] at hclk
    cases e with
    | pause ok now1 now2 =>
      have hinv2 := step_time hinv hclk.1 (rfl : step uc (.pause ok now1 now2) = some _)
      have hrel2 : List.Forall₂ (fun a b : track => b.title = a.title ∧ a.ts ≤ b.ts) l0
          (Pause uc ok now1 now2).trackList := by
        cases ok with
        | false => rw [Pause_fail_spec]; exact hrel
        | true =>
          cases hp : uc.state.Pause with
          | false => rw [Pause_start_spec uc now1 now2 hp]; exact hrel
          | true =>
            have hc := hclk.1
            simp only [eventClockOk, Bool.and_eq_true, decide_eq_true_eq] at hc
            obtain ⟨f0, k1, k2, k3, k4⟩ := hinv.fits hp hc.1.1 hc.1.2 hc.2
            rw [Pause_resume_spec uc now1 now2 hp k1 k2 k3 k4]
            show List.Forall₂ _ l0
              (uc.trackList.map (fun t => { t with ts := t.ts + (now1 - uc.pauseBegin) }))
            rw [List.forall₂_map_right_iff]
            refine hrel.imp ?_
            intro a b hab
            exact ⟨hab.1, by have := hab.2; show a.ts ≤ b.ts + (now1 - uc.pauseBegin); omega⟩
      obtain ⟨s, hs, hres⟩ := ih _ _ l0 hinv2 hes hclk.2 hrel2
      exact ⟨s, run_cons_eq_some.mpr ⟨_, rfl, hs⟩, hres⟩
    | _ => simp [Event.isPause] at he

/-- What the resume guarantees in every state reached from the initial one
under a non-decreasing clock. (1) A `Pause()` call made while paused is true,
the player's `Pause` succeeding, with clock reads `now1 ≤ now2` (lines 117 and
118): the scheduled time of every deferred entry grows by
`now1 - pauseBegin ≥ 0`, the accumulator grows by `now2 - pauseBegin`, titles,
number and order of the entries are kept and paused becomes false. (2) When the
player's `Pause` fails, paused, the accumulator and the entries are unchanged.
(3) Along any sequence of `Pause()` calls (any outcomes) the deferred list keeps
its length, order and titles and no scheduled time decreases. -/
theorem resume_shifts_entries (cfg : StateConfig) (evs : List Event) (s : StateUseCase)
    (hclk : clockOk 0 evs = true) (hrun : run (NewStateUseCase cfg) evs = some s) :
    (∀ now1 now2, s.state.Pause = true → clockEnd 0 evs ≤ now1 → now1 ≤ now2 →
      now2 < clockBound →
      0 ≤ now1 - s.pauseBegin ∧
      Pause s true now1 now2 =
        { s with
          playerCalls := s.playerCalls ++ [PlayerCall.Pause]
          trackList := s.trackList.map (fun t => { t with ts := t.ts + (now1 - s.pauseBegin) })
          pauseDelay := s.pauseDelay + (now2 - s.pauseBegin)
          pauseBegin := 0
          state := { s.state with Pause := false }
          published := s.published ++ [{ s.state with Pause := false }] }) ∧
    (∀ now1 now2, (Pause s false now1 now2).state = s.state ∧
      (Pause s false now1 now2).pauseDelay = s.pauseDelay ∧
      (Pause s false now1 now2).trackList = s.trackList) ∧
    (∀ cycles, (∀ e ∈ cycles, e.isPause = true) → clockOk (clockEnd 0 evs) cycles = true →
      ∃ s1, run s cycles = some s1 ∧
        List.Forall₂ (fun a b : track => b.title = a.title ∧ a.ts ≤ b.ts)
          s.trackList s1.trackList) := by
  have hinv : TimeInv s (clockEnd 0 evs) := run_time evs (TimeInv_init cfg) hclk hrun
  refine ⟨?_, ?_, ?_⟩
  · intro now1 now2 hp hnow h12 hb
    obtain ⟨f0, k1, k2, k3, k4⟩ := hinv.fits hp hnow h12 hb
    exact ⟨f0, Pause_resume_spec s now1 now2 hp k1 k2 k3 k4⟩
  · intro now1 now2
    rw [Pause_fail_spec]
    exact ⟨rfl, rfl, rfl⟩
  · intro cycles hall hc
    exact pause_cycles_monotone cycles s _ s.trackList hinv hall hc
      (List.forall₂_same.mpr (fun x _ => ⟨rfl, le_refl _⟩))

/-- Instance of `resume_shifts_entries` with both clock reads equal: power on,
pause at 10, "Song2" arrives at 10, resume at 15: elapsed is 5, "Song2" moves
from 10 to 15 and the accumulator from 0 to 5. -/
theorem resume_shifts_entries_same_read :
    ∃ s, run (NewStateUseCase cfgABC) [.power true, .pause true 10 10, .trackChanged "Song2" 10]
        = some s ∧
      s.trackList = [{ ts := 10, title := "Song2" }] ∧
      (Pause s true 15 15).trackList = [{ ts := 15, title := "Song2" }] ∧
      (Pause s true 15 15).pauseDelay = 5 ∧
      (Pause s true 15 15).state.Pause = false := by
  refine ⟨_, rfl, rfl, ?_⟩
  have h := ((resume_shifts_entries cfgABC
    [.power true, .pause true 10 10, .trackChanged "Song2" 10] _ (by decide) rfl).1
      15 15 (by decide) (by decide) (by decide) (by decide)).2
  rw [h]
  decide

/-- C8, the code at the failing input: power on, "Song1" live, pause at 10,
"Song2" buffered at 10 (the reachable controller `ucBuffered`: paused,
pause-start 10, accumulator 0), then the resuming `Pause()` whose clock read of
line 117 returns 15 and whose clock read of line 118 returns 16, a
non-decreasing clock. The entry moves by 5 (to 15) and the accumulator grows by
6: no single elapsed value is added to both. -/
theorem resume_with_clock_tick :
    run ucFresh [.power true, .trackChanged "Song1" 5, .pause true 10 10,
      .trackChanged "Song2" 10] = some ucBuffered ∧
    clockOk 0 [.power true, .trackChanged "Song1" 5, .pause true 10 10,
      .trackChanged "Song2" 10, .pause true 15 16] = true ∧
    ucBuffered.state.Pause = true ∧ ucBuffered.pauseBegin = 10 ∧ ucBuffered.pauseDelay = 0 ∧
    ucBuffered.trackList = [{ ts := 10, title := "Song2" }] ∧
    (Pause ucBuffered true 15 16).trackList = [{ ts := 15, title := "Song2" }] ∧
    (Pause ucBuffered true 15 16).pauseDelay = 6 ∧
    ¬ ∃ elapsed : Int,
      (Pause ucBuffered true 15 16).trackList =
        ucBuffered.trackList.map (fun t => { t with ts := t.ts + elapsed }) ∧
      (Pause ucBuffered true 15 16).pauseDelay = ucBuffered.pauseDelay + elapsed := by
  have hl : (Pause ucBuffered true 15 16).trackList = [{ ts := 15, title := "Song2" }] := by
    decide
  have hd : (Pause ucBuffered true 15 16).pauseDelay = 6 := by decide
  have h0 : ucBuffered.pauseDelay = 0 := by decide
  have ht : ucBuffered.trackList = [{ ts := 10, title := "Song2" }] := by decide
  refine ⟨by decide, by decide, by decide, by decide, h0, ht, hl, hd, ?_⟩
  rintro ⟨elapsed, h1, h2⟩
  rw [hl, ht] at h1
  rw [hd, h0] at h2
  simp only [List.map_cons, List.map_nil, List.cons.injEq, track.mk.injEq, and_true] at h1
  omega


/-! ## Deferral across a pause -/

theorem clockOk_append (es1 es2 : List Event) :
    ∀ last : Int, clockOk last (es1 ++ es2) =
      (clockOk last es1 && clockOk (clockEnd last es1) es2) := by
  induction es1 with
  | nil => intro last; simp [clockOk, clockEnd]
  | cons e es ih => intro last; simp [clockOk, clockEnd, ih, Bool.and_assoc]

theorem clockEnd_ge (es : List Event) :
    ∀ last : Int, clockOk last es = true → last ≤ clockEnd last es := by
  induction es with
  | nil => intro a _; simp [clockEnd]
  | cons x xs ih =>
    intro a ha
    simp only [clockOk, Bool.and_eq_true] at ha
    have h3 := ih _ ha.2
    have h4 : a ≤ eventClockEnd a x := by
      have := ha.1
      cases x <;> simp [eventClockOk, eventClockEnd] at this ⊢ <;> omega
    simp only [clockEnd]
    omega

theorem arrivals_shift (d x : Int) (es : List Event) :
    (arrivals d es).map (fun t => ({ t with ts := t.ts + x } : track)) = arrivals (d + x) es := by
  induction es with
  | nil => simp [arrivals]
  | cons e es ih =>
    cases e <;> simp [arrivals, ih]
    omega

theorem arrivals_sorted (d : Int) (es : List Event) :
    ∀ last : Int, clockOk last es = true →
      (∀ t ∈ arrivals d es, last + d ≤ t.ts ∧ t.ts ≤ clockEnd last es + d) ∧
      List.Pairwise (fun a b : track => a.ts ≤ b.ts) (arrivals d es) := by
  induction es with
  | nil => intro last _; simp [arrivals]
  | cons e es ih =>
    intro last hclk
    simp only [clockOk, Bool.and_eq_true] at hclk
    obtain ⟨h1, h2⟩ := ih _ hclk.2
    have hmono : last ≤ eventClockEnd last e := by
      have := hclk.1
      cases e <;> simp [eventClockOk, eventClockEnd] at this ⊢ <;> omega
    cases e with
    | trackChanged title now =>
      simp only [arrivals, clockEnd, eventClockEnd] at h1 h2 hmono ⊢
      have hend : now ≤ clockEnd now es := clockEnd_ge es now hclk.2
      constructor
      · intro t ht
        rcases List.mem_cons.mp ht with rfl | ht
        · simp only; omega
        · have := h1 t ht; omega
      · refine List.Pairwise.cons ?_ h2
        intro t ht
        have := h1 t ht
        simp only
        omega
    | _ =>
      simp only [arrivals, clockEnd] at h1 h2 ⊢
      refine ⟨?_, h2⟩
      intro t ht
      have := h1 t ht
      omega

theorem run_while_paused (mid : List Event) :
    ∀ (uc : StateUseCase) (last : Int), uc.state.Pause = true → TimeInv uc last →
      clockOk last mid = true → (∀ e ∈ mid, e.isArrivalOrTick = true) →
      run uc mid = some { uc with trackList := uc.trackList ++ arrivals uc.pauseDelay mid } := by
  induction mid with
  | nil => intro uc last _ _ _ _; simp [run, arrivals]
  | cons e es ih =>
    intro uc last hp hinv hclk hall
    have he := hall e (List.mem_cons_self _ _)
    have hes : ∀ x ∈ es, x.isArrivalOrTick = true :=
      fun x hx => hall x (List.mem_cons_of_mem _ hx)
    simp only [clockOk, Bool.and_eq_true] at hclk
    cases e with
    | trackChanged title now =>
      have hc := hclk.1
      simp only [eventClockOk, Bool.and_eq_true, decide_eq_true_eq] at hc
      have hfit : FitsInt64 (now + uc.pauseDelay) := by
        have hd := hinv.delay_le
        obtain ⟨a, b, c, d, e, f1, f2, g⟩ := hinv
        unfold FitsInt64
        unfold clockBound at *
        omega
      have hstep : step uc (.trackChanged title now) = some
          { uc with trackList := uc.trackList ++ [{ ts := now + uc.pauseDelay, title := title }] } := by
        simp [step, changeTrackCallback, hp, addToTrackList, wrapInt64_of_fits hfit]
      have hinv2 := step_time hinv hclk.1 hstep
      rw [run_cons_eq_some.mpr ⟨_, hstep, ih _ _ hp hinv2 hclk.2 hes⟩]
      simp [arrivals]
    | tick now =>
      have hstep : step uc (.tick now) = some uc := by
        simp [step, trackListNotifier, hp]
      have hinv2 := step_time hinv hclk.1 hstep
      rw [run_cons_eq_some.mpr ⟨_, hstep, ih _ _ hp hinv2 hclk.2 hes⟩]
      simp [arrivals]
    | _ => simp [Event.isArrivalOrTick] at he

theorem run_ticks (ticks : List Int) :
    ∀ (uc : StateUseCase), uc.state.Pause = false → InRange uc →
      ∃ s snaps, run uc (ticks.map Event.tick) = some s ∧
        s.trackList = ticksKeep ticks uc.trackList ∧
        s.published = uc.published ++ snaps ∧
        snaps.map (fun st => st.Track) = (ticksDeliver ticks uc.trackList).map (fun t => t.title) ∧
        (ticksDeliver ticks uc.trackList = [] → s.state = uc.state) ∧
        (∀ t, (ticksDeliver ticks uc.trackList).getLast? = some t → s.state.Track = t.title) := by
  induction ticks with
  | nil =>
    intro uc _ _
    exact ⟨uc, [], rfl, rfl, by simp, rfl, fun _ => rfl, by simp [ticksDeliver]⟩
  | cons now rest ih =>
    intro uc hp hr
    obtain ⟨ch, hch, ht, _⟩ := (trackListNotifier_spec uc now).2 hp hr.1 hr.2
    obtain ⟨hcfg, hidx, _, _, _, _, _, _, _, hpause, _⟩ := trackListNotifier_frame ht
    obtain ⟨s, snaps, hrun, hl, hpub, hsn, hnil, hlast⟩ := ih _ (by rw [hpause]; exact hp)
      (by unfold InRange; rw [hcfg, hidx]; exact hr)
    refine ⟨s, (uc.trackList.filter (fun t => t.ts ≤ now)).map
        (fun t => { uc.state with Channel := some ch, Track := t.title }) ++ snaps,
      ?_, ?_, ?_, ?_, ?_, ?_⟩
    · exact run_cons_eq_some.mpr ⟨_, ht, hrun⟩
    · rw [hl]; rfl
    · rw [hpub]; simp
    · simp only [List.map_append, List.map_map, ticksDeliver]
      rw [hsn]
      rfl
    · intro hd
      simp only [ticksDeliver, List.append_eq_nil] at hd
      rw [hnil hd.2]
      simp [hd.1]
    · intro t hlt
      simp only [ticksDeliver] at hlt
      by_cases hd : ticksDeliver rest (uc.trackList.filter (fun t => now < t.ts)) = []
      · rw [hd, List.append_nil] at hlt
        rw [hnil hd]
        simp [hlt]
      · rw [List.getLast?_append_of_ne_nil _ hd] at hlt
        exact hlast t hlt

theorem ticksKeep_append (ticks : List Int) :
    ∀ l1 l2 : List track, ticksKeep ticks (l1 ++ l2) = ticksKeep ticks l1 ++ ticksKeep ticks l2 := by
  induction ticks with
  | nil => intro l1 l2; rfl
  | cons now rest ih => intro l1 l2; simp [ticksKeep, List.filter_append, ih]

theorem ticksKeep_sublist (ticks : List Int) :
    ∀ l : List track, List.Sublist (ticksKeep ticks l) l := by
  induction ticks with
  | nil => intro l; exact List.Sublist.refl l
  | cons now rest ih =>
    intro l
    exact (ih _).trans (List.filter_sublist l)

theorem ticksDeliver_sublist_append (ticks : List Int) :
    ∀ l1 l2 : List track,
      List.Sublist (ticksDeliver ticks l2) (ticksDeliver ticks (l1 ++ l2)) := by
  induction ticks with
  | nil => intro l1 l2; exact List.Sublist.refl _
  | cons now rest ih =>
    intro l1 l2
    simp only [ticksDeliver, List.filter_append, List.append_assoc]
    refine List.Sublist.trans ?_ (List.sublist_append_right _ _)
    exact List.Sublist.append (List.Sublist.refl _) (ih _ _)

theorem mem_ticksDeliver (ticks : List Int) :
    ∀ (l : List track) (t : track), t ∈ ticksDeliver ticks l → ∃ now ∈ ticks, t.ts ≤ now := by
  induction ticks with
  | nil => intro l t h; simp [ticksDeliver] at h
  | cons now rest ih =>
    intro l t h
    simp only [ticksDeliver, List.mem_append, List.mem_filter, decide_eq_true_eq] at h
    rcases h with h | h
    · exact ⟨now, List.mem_cons_self _ _, h.2⟩
    · obtain ⟨x, hx, hle⟩ := ih _ t h
      exact ⟨x, List.mem_cons_of_mem _ hx, hle⟩

theorem mem_ticksKeep (ticks : List Int) :
    ∀ (l : List track) (t : track), t ∈ ticksKeep ticks l → ∀ now ∈ ticks, now < t.ts := by
  induction ticks with
  | nil => intro l t _ now hnow; simp at hnow
  | cons x rest ih =>
    intro l t h now hnow
    simp only [ticksKeep] at h
    rcases List.mem_cons.mp hnow with rfl | hnow
    · have hsub := (ticksKeep_sublist rest (l.filter (fun t => now < t.ts))).subset h
      simpa using (List.mem_filter.mp hsub).2
    · exact ih _ t h now hnow

theorem filter_sorted_split (now : Int) :
    ∀ l : List track, List.Pairwise (fun a b : track => a.ts ≤ b.ts) l →
      ∃ n, n ≤ l.length ∧ l.filter (fun t => t.ts ≤ now) = l.take n ∧
        l.filter (fun t => now < t.ts) = l.drop n := by
  intro l
  induction l with
  | nil => intro _; exact ⟨0, by simp⟩
  | cons a l ih =>
    intro hs
    obtain ⟨ha, hl⟩ := List.pairwise_cons.mp hs
    by_cases hdue : a.ts ≤ now
    · obtain ⟨n, hn, h1, h2⟩ := ih hl
      have hnot : ¬ now < a.ts := by omega
      exact ⟨n + 1, by simp; omega, by simp [List.filter_cons, hdue, h1],
        by simp [List.filter_cons, hnot, h2]⟩
    · have hlate : now < a.ts := by omega
      refine ⟨0, by simp, ?_, ?_⟩
      · simp only [List.take_zero, List.filter_eq_nil_iff, decide_eq_true_eq]
        intro t ht
        rcases List.mem_cons.mp ht with rfl | ht
        · exact hdue
        · have := ha t ht
          omega
      · simp only [List.drop_zero, List.filter_eq_self, decide_eq_true_eq]
        intro t ht
        rcases List.mem_cons.mp ht with rfl | ht
        · exact hlate
        · have := ha t ht
          omega

theorem ticks_sorted_split (ticks : List Int) :
    ∀ l : List track, List.Pairwise (fun a b : track => a.ts ≤ b.ts) l →
      ∃ n, n ≤ l.length ∧ ticksDeliver ticks l = l.take n ∧ ticksKeep ticks l = l.drop n := by
  induction ticks with
  | nil => intro l _; exact ⟨0, by simp [ticksDeliver, ticksKeep]⟩
  | cons now rest ih =>
    intro l hs
    obtain ⟨n, hn, h1, h2⟩ := filter_sorted_split now l hs
    have hs2 : List.Pairwise (fun a b : track => a.ts ≤ b.ts) (l.drop n) :=
      hs.sublist (List.drop_sublist n l)
    obtain ⟨m, hm, h3, h4⟩ := ih (l.drop n) hs2
    refine ⟨n + m, ?_, ?_, ?_⟩
    · simp only [List.length_drop] at hm
      omega
    · simp only [ticksDeliver, h1, h2, h3]
      rw [List.take_add]
    · simp only [ticksKeep, h2, h4]
      rw [List.drop_drop, Nat.add_comm]

/-- C3: let `s` be a state reached from the initial one under a non-decreasing
clock, powered on and not paused. `Pause()` succeeds at time `p`; while paused,
track-change callbacks (at times `t_1 ≤ ... ≤ t_K`) and ticks occur in any
interleaving; `Pause()` succeeds again at time `r` (`D = r - p`); then ticks occur at
arbitrary times. Then: (a) during the pause no tick delivers anything: the track
is unchanged, the only snapshot published is the one of the `Pause()` call, and
the K entries `(t_i + pauseDelay, title_i)` are appended to the list in arrival
order; (b) the resume reschedules them to `t_i + pauseDelay + D` with
`pauseDelay ≥ 0`, hence not before `t_i + D`; (c) after the ticks, for some
`n ≤ K` exactly the first `n` of the K entries have been delivered: each of them
was due at one of the ticks, each of the other `K - n` is still buffered, in
order, and was due at none of the ticks, and the titles of the delivered ones
occur in arrival order in the snapshots published by the ticks (they are exactly
those snapshots' titles when nothing else was buffered before the pause). -/
theorem pause_defers_in_order (cfg : StateConfig) (evs mid : List Event) (s : StateUseCase)
    (p p2 r r2 : Int) (ticks : List Int)
    (hclk : clockOk 0 (evs ++ Event.pause true p p2 :: (mid ++ [Event.pause true r r2])) = true)
    (hrun : run (NewStateUseCase cfg) evs = some s)
    (hpower : s.state.Power = true) (hplaying : s.state.Pause = false)
    (hmid : ∀ e ∈ mid, e.isArrivalOrTick = true) :
    ∃ s2 s4 n oldRest snaps,
      run s (Event.pause true p p2 :: mid) = some s2 ∧
      s2.state.Track = s.state.Track ∧
      s2.published = s.published ++ [{ s.state with Pause := true }] ∧
      s2.trackList = s.trackList ++ arrivals s.pauseDelay mid ∧
      0 ≤ s.pauseDelay ∧
      (Pause s2 true r r2).state.Pause = false ∧
      (Pause s2 true r r2).trackList =
        s.trackList.map (fun t => { t with ts := t.ts + (r - p) }) ++
          arrivals (s.pauseDelay + (r - p)) mid ∧
      run (Pause s2 true r r2) (ticks.map Event.tick) = some s4 ∧
      n ≤ (arrivals (s.pauseDelay + (r - p)) mid).length ∧
      List.Sublist oldRest (s.trackList.map (fun t => { t with ts := t.ts + (r - p) })) ∧
      s4.trackList = oldRest ++ (arrivals (s.pauseDelay + (r - p)) mid).drop n ∧
      (∀ t ∈ (arrivals (s.pauseDelay + (r - p)) mid).take n, ∃ now ∈ ticks, t.ts ≤ now) ∧
      (∀ t ∈ (arrivals (s.pauseDelay + (r - p)) mid).drop n, ∀ now ∈ ticks, now < t.ts) ∧
      s4.published = (Pause s2 true r r2).published ++ snaps ∧
      List.Sublist
        (((arrivals (s.pauseDelay + (r - p)) mid).take n).map (fun t => t.title))
        (snaps.map (fun st => st.Track)) ∧
      (s.trackList = [] →
        snaps.map (fun st => st.Track) =
          ((arrivals (s.pauseDelay + (r - p)) mid).take n).map (fun t => t.title)) := by
  -- the clock
  rw [clockOk_append] at hclk
  simp only [Bool.and_eq_true] at hclk
  obtain ⟨hclk0, hclk1⟩ := hclk
  simp only [clockOk, Bool.and_eq_true] at hclk1
  obtain ⟨hcp, hclk2⟩ := hclk1
  simp only [eventClockEnd] at hclk2
  rw [clockOk_append] at hclk2
  simp only [Bool.and_eq_true, clockOk, Bool.and_true] at hclk2
  obtain ⟨hcmid, hcr⟩ := hclk2
  have hcr2 := hcr
  simp only [eventClockOk, Bool.and_eq_true, decide_eq_true_eq] at hcr2
  -- the state before the pause
  have hinv : TimeInv s (clockEnd 0 evs) := run_time evs (TimeInv_init cfg) hclk0 hrun
  have hrange : InRange s := by
    rcases (run_index evs (Or.inl ⟨rfl, rfl⟩) hrun).2.1 with ⟨_, hoff⟩ | hr
    · rw [hpower] at hoff; exact absurd hoff (by simp)
    · exact hr
  -- the pause
  have hstep1 : step s (Event.pause true p p2) = some (Pause s true p p2) := rfl
  have hinv1 : TimeInv (Pause s true p p2) p2 := step_time hinv hcp hstep1
  have hs1 := Pause_start_spec s p p2 hplaying
  have hmidrun := run_while_paused mid (Pause s true p p2) p2 (by rw [hs1]) hinv1 hcmid hmid
  have hinv2 := run_time mid hinv1 hcmid hmidrun
  obtain ⟨s2, hs2⟩ : ∃ s2, s2 = { Pause s true p p2 with
      trackList := (Pause s true p p2).trackList ++ arrivals (Pause s true p p2).pauseDelay mid } :=
    ⟨_, rfl⟩
  rw [← hs2] at hmidrun hinv2
  have e1 : s2.state.Pause = true := by rw [hs2, hs1]
  have e2 : s2.pauseBegin = p := by rw [hs2, hs1]
  have e3 : s2.pauseDelay = s.pauseDelay := by rw [hs2, hs1]
  have e4 : s2.trackList = s.trackList ++ arrivals s.pauseDelay mid := by rw [hs2, hs1]
  have e5 : s2.state.Track = s.state.Track := by rw [hs2, hs1]
  have e6 : s2.published = s.published ++ [{ s.state with Pause := true }] := by rw [hs2, hs1]
  have e7 : s2.cfg = s.cfg := by rw [hs2, hs1]
  have e8 : s2.curChannelIdx = s.curChannelIdx := by rw [hs2, hs1]
  clear hs2
  -- the resume
  obtain ⟨_, k1, k2, k3, k4⟩ := hinv2.fits e1 hcr2.1.1 hcr2.1.2 hcr2.2
  have hs3 := Pause_resume_spec s2 r r2 e1 k1 k2 k3 k4
  obtain ⟨s3, hs3def⟩ : ∃ s3, s3 = Pause s2 true r r2 := ⟨_, rfl⟩
  rw [← hs3def] at hs3
  have g1 : s3.state.Pause = false := by rw [hs3]
  have g2 : s3.trackList = s.trackList.map (fun t => { t with ts := t.ts + (r - p) }) ++
      arrivals (s.pauseDelay + (r - p)) mid := by
    rw [hs3]
    simp only [e2, e3, e4, List.map_append, arrivals_shift]
  have g3 : InRange s3 := by
    unfold InRange
    rw [hs3]
    simp only [e7, e8]
    exact hrange
  clear hs3
  -- the ticks
  obtain ⟨s4, snaps, hrun4, hl4, hpub4, hsn4, _, _⟩ := run_ticks ticks s3 g1 g3
  rw [g2] at hl4 hsn4
  simp only [ticksKeep_append] at hl4
  have hsorted := (arrivals_sorted (s.pauseDelay + (r - p)) mid p2 hcmid).2
  obtain ⟨n, hn, hdel, hkeep⟩ := ticks_sorted_split ticks _ hsorted
  rw [hkeep] at hl4
  subst hs3def
  refine ⟨s2, s4, n, _, snaps, run_cons_eq_some.mpr ⟨_, hstep1, hmidrun⟩,
    e5, e6, e4, hinv.2.2.2.2.1, g1, g2, hrun4, hn,
    ticksKeep_sublist ticks _, hl4, ?_, ?_, hpub4, ?_, ?_⟩
  · intro t ht
    rw [← hdel] at ht
    exact mem_ticksDeliver ticks _ t ht
  · intro t ht
    rw [← hkeep] at ht
    exact mem_ticksKeep ticks _ t ht
  · rw [hsn4, ← hdel]
    exact (ticksDeliver_sublist_append ticks _ _).map _
  · intro hnil
    rw [hsn4, ← hdel]
    simp [hnil]

/-- Witness for C3, the scenario of the specification: "Song1" is live, pause
at 10, "Song2" arrives at 10, resume at 15. The entry is buffered at 10,
rescheduled to 15 by the resume (elapsed 5); the tick at 14 leaves it buffered
and publishes nothing, the tick at 15 delivers it. -/
theorem pause_defers_in_order_witness :
    (∃ s2 s4, run ucPlaying [.pause true 10 10, .trackChanged "Song2" 10] = some s2 ∧
      s2.state.Track = "Song1" ∧
      s2.trackList = [{ ts := 10, title := "Song2" }] ∧
      (Pause s2 true 15 15).trackList = [{ ts := 15, title := "Song2" }] ∧
      run (Pause s2 true 15 15) [.tick 14, .tick 15] = some s4) ∧
    (run ucPlaying [.pause true 10 10, .trackChanged "Song2" 10, .tick 12, .pause true 15 15,
        .tick 14]).map (fun s => (s.trackList, s.state.Track, s.published.map (fun st => st.Track)))
      = some ([{ ts := 15, title := "Song2" }], "Song1", ["", "Song1", "Song1", "Song1"]) ∧
    (run ucPlaying [.pause true 10 10, .trackChanged "Song2" 10, .tick 12, .pause true 15 15,
        .tick 14, .tick 15]).map
          (fun s => (s.trackList, s.state.Track, s.published.map (fun st => st.Track)))
      = some ([], "Song2", ["", "Song1", "Song1", "Song1", "Song2"]) := by
  refine ⟨?_, by decide, by decide⟩
  obtain ⟨s2, s4, n, oldRest, snaps, h1, h2, _, h4, _, _, h7, h8, _⟩ :=
    pause_defers_in_order cfgABC [.power true, .trackChanged "Song1" 5]
      [.trackChanged "Song2" 10] ucPlaying 10 10 15 15 [14, 15]
      (by decide) (by decide) (by decide) (by decide) (by decide)
  exact ⟨s2, s4, h1, h2, h4, h7, h8⟩

/-! ## Channel switch and the deferred list -/

/-- No channel command touches the deferred list or the pause bookkeeping. -/
theorem channel_commands_keep_trackList (uc s : StateUseCase) (playOk : Bool)
    (h : NextChannel uc playOk = some s ∨ PrevChannel uc playOk = some s ∨
      DefaultChannel uc playOk = some s) :
    s.trackList = uc.trackList ∧ s.pauseDelay = uc.pauseDelay ∧
      s.pauseExists = uc.pauseExists ∧ s.published = uc.published := by
  rcases h with h | h | h
  · obtain ⟨ch, _, hs⟩ := NextChannel_eq_some h
    subst hs; exact ⟨rfl, rfl, rfl, rfl⟩
  · obtain ⟨ch, _, hs⟩ := PrevChannel_eq_some h
    subst hs; exact ⟨rfl, rfl, rfl, rfl⟩
  · obtain ⟨ch, _, hs⟩ := DefaultChannel_eq_some h
    subst hs; exact ⟨rfl, rfl, rfl, rfl⟩

/-- C4, the code at the failing input: channel A is playing, "Song2" (scheduled
at 15) and "Song3" (scheduled at 20) are buffered. `NextChannel()`,
`PrevChannel()` and `DefaultChannel()`, with `Play` succeeding, each leave both
entries in the deferred list; after `NextChannel()` the tick at time 15 sets
`currentTrack` to the buffered "Song2" and publishes it with channel B. -/
theorem channel_switch_keeps_deferred :
    ucDeferred.trackList = [{ ts := 15, title := "Song2" }, { ts := 20, title := "Song3" }] ∧
    (NextChannel ucDeferred true).map (fun s => s.trackList) = some ucDeferred.trackList ∧
    (PrevChannel ucDeferred true).map (fun s => s.trackList) = some ucDeferred.trackList ∧
    (DefaultChannel ucDeferred true).map (fun s => s.trackList) = some ucDeferred.trackList ∧
    (∃ s1 s2, NextChannel ucDeferred true = some s1 ∧
      s1.state.Channel = channelsABC[1]? ∧
      trackListNotifier s1 15 = some s2 ∧
      s2.state.Track = "Song2" ∧ s2.state.Channel = channelsABC[1]? ∧
      s2.published = s1.published ++ [s2.state]) := by
  refine ⟨by decide, by decide, by decide, by decide, _, _, rfl, ?_, rfl, ?_, ?_, ?_⟩ <;> decide

/-! ## The side conditions hold in every reachable state -/

/-- In every state reached from the initial one by an admissible sequence of
events under a non-decreasing clock (N ≥ 1 channels): the index is valid as
soon as an entry is buffered or the pipeline has been started, a resume has a
non-negative elapsed time, and the `int64` sums computed by the next track
callback or resume at a later time `now` do not wrap. -/
theorem reachable_side_conditions (cfg : StateConfig) (evs : List Event) (s : StateUseCase)
    (now : Int) (hN : 1 ≤ cfg.Channels.length)
    (hadm : admissible (NewStateUseCase cfg) evs = true) (hclk : clockOk 0 evs = true)
    (hrun : run (NewStateUseCase cfg) evs = some s)
    (hnow : clockEnd 0 evs ≤ now) (hbound : now < clockBound) :
    (s.trackList ≠ [] → InRange s) ∧ (pipelineStarted s = true → InRange s) ∧
    FitsInt64 (now + s.pauseDelay) ∧
    (s.state.Pause = true → 0 ≤ now - s.pauseBegin ∧
      FitsInt64 (s.pauseDelay + (now - s.pauseBegin)) ∧
      ∀ t ∈ s.trackList, FitsInt64 (t.ts + (now - s.pauseBegin))) := by
  have hsafe0 : Safe (NewStateUseCase cfg) := ⟨hN, Or.inr ⟨rfl, rfl, rfl, rfl⟩⟩
  obtain ⟨s1, hs1, hsafe⟩ := run_safe evs hsafe0 hadm
  rw [hrun] at hs1
  have hs := Option.some.inj hs1
  subst hs
  have hinv : TimeInv s (clockEnd 0 evs) := run_time evs (TimeInv_init cfg) hclk hrun
  refine ⟨?_, ?_, ?_, ?_⟩
  · intro hne
    rcases hsafe.2 with hr | ⟨_, _, hl, _⟩
    · exact hr
    · exact absurd hl hne
  · intro hp
    rcases hsafe.2 with hr | ⟨_, _, _, hq⟩
    · exact hr
    · rw [hp] at hq; exact absurd hq (by simp)
  · have hd := hinv.delay_le
    obtain ⟨a, b, c, d, e, _⟩ := hinv
    unfold FitsInt64
    unfold clockBound at *
    omega
  · intro hp
    obtain ⟨f0, _, _, k3, k4⟩ := hinv.fits hp hnow (le_refl now) hbound
    exact ⟨f0, k3, k4⟩
end MediaBox
